import Mathlib

/-!
# Verification of the HR-copilot generation pipeline

Shallow embedding of the generation pipeline of the `tatahrbot` repository
(a Streamlit multi-page app).  The embedded code is:

* `clean_text`            — src/pages/04_performance_management.py lines 58-63
                            (identical in 05_employee_relations.py lines 59-64);
* `clean_markdown_text`   — src/pages/03_talent_acquisition.py lines 64-82;
* `generate_content`      — src/pages/04_performance_management.py lines 65-122
                            (structurally identical to `generate_ai_content` in
                            01_talent_development.py lines 72-112 and to
                            05_employee_relations.py lines 66-132; the modules
                            differ only in the system-prompt text and the Gemini
                            max_output_tokens value, so the system prompt is a
                            parameter here);
* the sidebar model-choice defaulting — lines 33-49 of modules 01-06
  (pages 07, 08 and 09 have no such block: their sidebars only display key
  status and never write the stored model choice, which is modelled too);
* the "Generate IDP" button handler — 01_talent_development.py lines 203-239.

Python strings are modelled as `List Char` (wrapped into `String` at the
interface), `None`-able arguments as `Option String`, and the provider SDK
clients as a function `Provider → String → Except String String` returning
either the response text or the message of the raised exception.
-/

/-! ## Python string primitives -/

/-- The whitespace characters stripped by Python `str.strip()` (the characters
for which `str.isspace()` holds: ASCII whitespace, the C0/C1 separators
U+001C-U+001F and U+0085, U+00A0, U+1680, U+2000-U+200A, U+2028, U+2029,
U+202F, U+205F and U+3000). -/
def wsPy (c : Char) : Bool :=
  c = ' ' || c = '\t' || c = '\n' || c = '\r' || c = '\x0b' || c = '\x0c' ||
  (0x1c ≤ c.toNat && c.toNat ≤ 0x1f) || c.toNat = 0x85 || c.toNat = 0xa0 ||
  c.toNat = 0x1680 || (0x2000 ≤ c.toNat && c.toNat ≤ 0x200a) ||
  c.toNat = 0x2028 || c.toNat = 0x2029 || c.toNat = 0x202f || c.toNat = 0x205f ||
  c.toNat = 0x3000

/-- Whitespace other than the newline character (the characters that Python
`line.strip()` can remove from a line produced by `split` at newlines). -/
def wsX (c : Char) : Bool := wsPy c && !(c = '\n')

/-- Python `text.replace(old, new)` for the non-empty pattern `p :: ps`:
replace every occurrence, scanning left to right, non-overlapping. -/
def replaceL (p : Char) (ps rep : List Char) : List Char → List Char
  | [] => []
  | c :: cs =>
    if (p :: ps).isPrefixOf (c :: cs) then
      rep ++ replaceL p ps rep (cs.drop ps.length)
    else
      c :: replaceL p ps rep cs
termination_by l => l.length
decreasing_by
  · simp only [List.length_drop, List.length_cons]
    omega
  · simp only [List.length_cons]
    omega

/-- Python `pat in text` (substring test). -/
def containsL (pat : List Char) : List Char → Bool
  | [] => pat.isEmpty
  | c :: cs => pat.isPrefixOf (c :: cs) || containsL pat cs

/-- Python `text.split` at the newline character. -/
def splitNl : List Char → List (List Char)
  | [] => [[]]
  | c :: cs =>
    if c = '\n' then [] :: splitNl cs
    else
      match splitNl cs with
      | [] => [[c]]
      | l :: ls => (c :: l) :: ls

/-- Python `(chr 10).join lines`. -/
def joinNl : List (List Char) → List Char
  | [] => []
  | [l] => l
  | l :: ls => l ++ '\n' :: joinNl ls

/-- Python `text.strip()`: drop whitespace from both ends. -/
def pyStrip (l : List Char) : List Char :=
  ((l.dropWhile wsPy).reverse.dropWhile wsPy).reverse

/-- Verification predicate: an adjacent pair is allowed when no stripable
whitespace touches a newline on either side. -/
def okPair (a b : Char) : Bool :=
  !((a = '\n') && wsX b) && !(wsX a && (b = '\n'))

/-- Verification predicate: every line of the string is already stripped,
expressed locally — no stripable whitespace at either string end, and none
adjacent to a newline. -/
def EdgeOk (m : List Char) : Prop :=
  List.Chain' (fun a b => okPair a b = true) m ∧
  (∀ c, m.head? = some c → wsX c = false) ∧
  (∀ c, m.getLast? = some c → wsX c = false)

/-! ## The normalization helpers of the repository -/

/-- The five chained `replace` calls shared by `clean_text` and
`clean_markdown_text`: delete every occurrence of the two-star, one-star,
three-hash, two-hash and one-hash markdown markers, in that order. -/
def stripMarkdownChars (l : List Char) : List Char :=
  replaceL '#' [] []
    (replaceL '#' ['#'] []
      (replaceL '#' ['#', '#'] []
        (replaceL '*' [] []
          (replaceL '*' ['*'] [] l))))

/-- `clean_text` (src/pages/04_performance_management.py lines 58-63):
`None` and the empty string short-circuit to `""` (Python falsiness); otherwise
the markdown markers are deleted and the result is stripped. -/
def clean_text (text : Option String) : String :=
  match text with
  | none => ""
  | some s => if s = "" then "" else (pyStrip (stripMarkdownChars s.data)).asString

/-- The data handed to `st.download_button` by `create_download_button`
(src/pages/04_performance_management.py lines 124-132). -/
def create_download_button_data (content : Option String) : String :=
  clean_text content

/-- The `while` loop of `clean_markdown_text` (src/pages/03_talent_acquisition.py
lines 78-80): while the string contains three consecutive newlines, replace
them by two.  Terminates because replacing an occurring pattern by a strictly
shorter string strictly shortens the list (proved inline below, and restated
as `replaceL_length_lt` in the theorem section). -/
def collapseNl (l : List Char) : List Char :=
  if h : containsL ['\n', '\n', '\n'] l = true then
    collapseNl (replaceL '\n' ['\n', '\n'] ['\n', '\n'] l)
  else l
termination_by l.length
decreasing_by
  have hle : ∀ (p : Char) (ps rep : List Char), rep.length ≤ ps.length + 1 →
      ∀ m : List Char, (replaceL p ps rep m).length ≤ m.length := by
    intro p ps rep hr m
    induction m using replaceL.induct p ps rep with
    | case1 => simp [replaceL]
    | case2 c cs hpre ih =>
      rw [replaceL, if_pos hpre]
      simp only [List.length_append, List.length_cons]
      have hd : (cs.drop ps.length).length = cs.length - ps.length := List.length_drop ..
      have hlen := (List.isPrefixOf_iff_prefix.mp hpre).length_le
      simp only [List.length_cons] at hlen
      omega
    | case3 c cs hpre ih =>
      rw [replaceL, if_neg hpre]
      simp only [List.length_cons]
      omega
  have hlt : ∀ (p : Char) (ps rep : List Char), rep.length < ps.length + 1 →
      ∀ m : List Char, containsL (p :: ps) m = true →
      (replaceL p ps rep m).length < m.length := by
    intro p ps rep hr m
    induction m using replaceL.induct p ps rep with
    | case1 => simp [containsL]
    | case2 c cs hpre ih =>
      intro _
      rw [replaceL, if_pos hpre]
      simp only [List.length_append, List.length_cons]
      have hd : (cs.drop ps.length).length = cs.length - ps.length := List.length_drop ..
      have hb := hle p ps rep (Nat.le_of_lt hr) (cs.drop ps.length)
      have hlen := (List.isPrefixOf_iff_prefix.mp hpre).length_le
      simp only [List.length_cons] at hlen
      omega
    | case3 c cs hpre ih =>
      intro hc
      rw [containsL, Bool.or_eq_true] at hc
      rcases hc with hc | hc
      · exact absurd hc hpre
      · rw [replaceL, if_neg hpre]
        simp only [List.length_cons]
        exact Nat.succ_lt_succ (ih hc)
  exact hlt '\n' ['\n', '\n'] ['\n', '\n'] (by simp) l h

/-- The body of `clean_markdown_text` (src/pages/03_talent_acquisition.py
lines 69-82) on character lists: markdown-marker deletion, `---` / `===`
rulers widened to 50 box-drawing characters, every line stripped, runs of
blank lines collapsed, and the whole string stripped. -/
def cmtPipeline (l : List Char) : List Char :=
  let c1 := stripMarkdownChars l
  let c2 := replaceL '-' ['-', '-'] (List.replicate 50 '─') c1
  let c3 := replaceL '=' ['=', '='] (List.replicate 50 '═') c2
  let c4 := joinNl ((splitNl c3).map pyStrip)
  let c5 := collapseNl c4
  pyStrip c5

/-- `clean_markdown_text` (src/pages/03_talent_acquisition.py lines 64-82):
`None` and the empty string short-circuit to `""` (Python falsiness);
otherwise the pipeline above. -/
def clean_markdown_text (text : Option String) : String :=
  match text with
  | none => ""
  | some s => if s = "" then "" else (cmtPipeline s.data).asString

/-! ## The generation pipeline -/

/-- The two upstream providers. -/
inductive Provider where
  | gemini
  | openai
deriving DecidableEq

/-- Outcome classification of one `generate_content` call, one value per
observable branch of the Python code:
* `success`                 — the provider call returned (the string is returned raw);
* `provider_error`          — the provider call raised (caught, `st.error`, return `None`);
* `no_provider_configured`  — the selected provider has no (truthy) API key;
* `empty_input`             — the button handler short-circuited before calling
                              `generate_content` (modules validate locally);
* `invalid_model`           — the final `else` branch: the session model choice
                              names no known provider. -/
inductive Outcome where
  | success
  | provider_error
  | no_provider_configured
  | empty_input
  | invalid_model
deriving DecidableEq

/-- The deployment configuration: the two optional credentials read from the
environment (`os.getenv` yields `None` when absent; Python treats `""` as
falsy, which `truthy` reproduces). -/
structure Env where
  gemini_api_key : Option String
  openai_api_key : Option String
deriving DecidableEq

/-- Python truthiness of an `Optional[str]`. -/
def truthy : Option String → Bool
  | none => false
  | some s => !(s = "")

/-- Everything one `generate_content` invocation does, observably:
the Python return value (`None` or a string), the branch taken (`outcome`),
the `st.error` message displayed (if any), and the network calls issued,
each recorded with the prompt dispatched to the provider. -/
structure GenerationResult where
  returned : Option String
  outcome : Outcome
  error_message : Option String
  calls : List (Provider × String)
deriving DecidableEq

/-- The text carried by a result: the returned string, or `""` when the call
returned `None`. -/
def GenerationResult.text (r : GenerationResult) : String := r.returned.getD ""

/-- `available_models` (lines 26-31 of every page): the provider labels whose
credential is configured (truthy), Gemini first. -/
def available_models (env : Env) : List String :=
  (if truthy env.gemini_api_key then ["Gemini (Google)"] else []) ++
  (if truthy env.openai_api_key then ["GPT-4.1 (OpenAI)"] else [])

/-- The default used by `st.session_state.get` inside `generate_content`:
`available_models[0] if available_models else` the Gemini label. -/
def default_model_choice (env : Env) : String :=
  match available_models env with
  | [] => "Gemini (Google)"
  | m :: _ => m

/-- The model choice `generate_content` reads from the session. -/
def resolve_model_choice (env : Env) (session_model_choice : Option String) : String :=
  session_model_choice.getD (default_model_choice env)

/-- A provider SDK client, abstracted: given the dispatched prompt it either
returns the response text or raises an exception whose stringified message is
the `error` payload. -/
def ClientFun : Type := Provider → String → Except String String

/-- `generate_content` (src/pages/04_performance_management.py lines 65-122;
`generate_ai_content` of 01_talent_development.py is the same function with a
different system prompt).  Branch by the resolved model choice; check the
credential (truthiness); for Gemini dispatch the system prompt, a blank line
and the page prompt as one string; for OpenAI dispatch the page prompt alone;
catch any exception and surface `"Error generating content: "` plus its
stringified message via `st.error`, returning `None`. -/
def generate_content (env : Env) (session_model_choice : Option String) (client : ClientFun)
    (system_prompt prompt : String) : GenerationResult :=
  let model_choice := resolve_model_choice env session_model_choice
  if model_choice = "Gemini (Google)" then
    if truthy env.gemini_api_key = false then
      ⟨none, .no_provider_configured, some "Please add your Gemini API key to the .env file", []⟩
    else
      let full_prompt := system_prompt ++ "\n\n" ++ prompt
      match client .gemini full_prompt with
      | .ok t => ⟨some t, .success, none, [(.gemini, full_prompt)]⟩
      | .error e =>
          ⟨none, .provider_error, some ("Error generating content: " ++ e),
            [(.gemini, full_prompt)]⟩
  else if model_choice = "GPT-4.1 (OpenAI)" then
    if truthy env.openai_api_key = false then
      ⟨none, .no_provider_configured, some "Please add your OpenAI API key to the .env file", []⟩
    else
      match client .openai prompt with
      | .ok t => ⟨some t, .success, none, [(.openai, prompt)]⟩
      | .error e =>
          ⟨none, .provider_error, some ("Error generating content: " ++ e), [(.openai, prompt)]⟩
  else ⟨none, .invalid_model, some "No valid model selected or available.", []⟩

/-- The sidebar model-choice initialization of the six modules that have it
(01_talent_development.py lines 33-49, and the identical blocks of modules
02-06).  With no credential configured the session value is untouched (only
an error is shown).  Otherwise a missing session value, or one not among the
available models, is replaced by the first available model; the subsequent
`selectbox` re-selects that value (its `index` points at it), so the session
keeps it. -/
def sidebar_model_choice (env : Env) (session_model_choice : Option String) : Option String :=
  match available_models env with
  | [] => session_model_choice
  | m :: ms =>
    match session_model_choice with
    | none => some m
    | some c => if c ∈ m :: ms then some c else some m

/-- The sidebars of 07_learning_development.py (lines 31-45),
08_compensation_rewards.py (lines 27-41) and 09_goal_setting.py (lines
31-45): they read `st.session_state.get` only to pick a status message and
never assign `model_choice`, so the stored model choice is left exactly as it
was (the `env` argument records that the displayed status, not the choice,
depends on the keys). -/
def sidebar_status_only (env : Env) (session_model_choice : Option String) : Option String :=
  session_model_choice

/-! ## The Generate IDP button handler (01_talent_development.py lines 203-239) -/

/-- The form fields interpolated into the IDP prompt. -/
structure IDPFields where
  employee_name : String
  current_role : String
  department : String
  manager_name : String
  career_goals : String
  current_strengths : String
  development_areas : String
  timeline : String
  job_level : String
  industry : String
  specific_skills : String
  learning_preferences : List String
deriving DecidableEq

/-- The static role preamble of module 01 (01_talent_development.py line 82). -/
def talent_development_system_prompt : String :=
  "You are an expert HR professional and consultant specializing in talent development, succession planning, and organizational development. Provide detailed, professional, and actionable HR content that follows industry best practices and compliance standards."

/-- The IDP prompt f-string (01_talent_development.py lines 205-232), with the
16-space indentation of the Python source reproduced verbatim. -/
def idp_prompt (f : IDPFields) : String :=
  "\n" ++
  "                Create a comprehensive Individual Development Plan (IDP) for:\n" ++
  "                \n" ++
  "                Employee: " ++ f.employee_name ++ "\n" ++
  "                Current Role: " ++ f.current_role ++ "\n" ++
  "                Department: " ++ f.department ++ "\n" ++
  "                Manager: " ++ f.manager_name ++ "\n" ++
  "                Job Level: " ++ f.job_level ++ "\n" ++
  "                Industry: " ++ f.industry ++ "\n" ++
  "                Timeline: " ++ f.timeline ++ "\n" ++
  "                \n" ++
  "                Career Goals: " ++ f.career_goals ++ "\n" ++
  "                Current Strengths: " ++ f.current_strengths ++ "\n" ++
  "                Development Areas: " ++ f.development_areas ++ "\n" ++
  "                Specific Skills: " ++ f.specific_skills ++ "\n" ++
  "                Learning Preferences: " ++ String.intercalate ", " f.learning_preferences ++ "\n" ++
  "                \n" ++
  "                Please create a detailed IDP that includes:\n" ++
  "                1. Executive Summary\n" ++
  "                2. Current State Assessment\n" ++
  "                3. Development Objectives (SMART goals)\n" ++
  "                4. Action Plan with specific activities\n" ++
  "                5. Resources and Support Needed\n" ++
  "                6. Success Metrics\n" ++
  "                7. Review Timeline\n" ++
  "                \n" ++
  "                Make it professional, actionable, and tailored to the specific role and industry.\n" ++
  "                "

/-- The Generate IDP button handler (01_talent_development.py lines 203-239):
Python string truthiness guards `employee_name` and `current_role`; when both
are non-empty the prompt is built and `generate_ai_content` is called,
otherwise an error is shown and no call happens (the local `empty_input`
short-circuit of the spec). -/
def generate_idp_button (env : Env) (session_model_choice : Option String) (client : ClientFun)
    (f : IDPFields) : GenerationResult :=
  if f.employee_name ≠ "" ∧ f.current_role ≠ "" then
    generate_content env session_model_choice client talent_development_system_prompt
      (idp_prompt f)
  else
    ⟨none, .empty_input, some "Please fill in at least Employee Name and Current Role", []⟩

/-! ## Library: `replaceL` and `containsL` -/

/-- `List.isPrefixOf` agrees with the prefix order. -/
theorem prefixOf_iff {l₁ l₂ : List Char} : l₁.isPrefixOf l₂ = true ↔ l₁ <+: l₂ :=
  List.isPrefixOf_iff_prefix

/-- A prefix is an infix. -/
theorem infix_of_isPre {l₁ l₂ : List Char} (h : l₁ <+: l₂) : l₁ <:+: l₂ := by
  rcases h with ⟨t, ht⟩
  exact ⟨[], t, by simpa using ht⟩

/-- A suffix is an infix. -/
theorem infix_of_isSuf {l₁ l₂ : List Char} (h : l₁ <:+ l₂) : l₁ <:+: l₂ := by
  rcases h with ⟨t, ht⟩
  exact ⟨t, [], by simpa using ht⟩

/-- Characters of a `replace` result come from the input or the replacement. -/
theorem mem_replaceL {p : Char} {ps rep : List Char} {a : Char} :
    ∀ {l : List Char}, a ∈ replaceL p ps rep l → a ∈ l ∨ a ∈ rep := by
  intro l
  induction l using replaceL.induct p ps rep with
  | case1 => intro h; rw [replaceL] at h; exact absurd h (List.not_mem_nil a)
  | case2 c cs hpre ih =>
    intro h
    rw [replaceL, if_pos hpre] at h
    rcases List.mem_append.mp h with h | h
    · exact Or.inr h
    · rcases ih h with h | h
      · exact Or.inl (List.mem_cons_of_mem c (List.mem_of_mem_drop h))
      · exact Or.inr h
  | case3 c cs hpre ih =>
    intro h
    rw [replaceL, if_neg hpre] at h
    rcases List.mem_cons.mp h with h | h
    · exact Or.inl (h ▸ List.mem_cons_self c cs)
    · rcases ih h with h | h
      · exact Or.inl (List.mem_cons_of_mem c h)
      · exact Or.inr h

/-- `replace` is the identity when the first pattern character does not occur. -/
theorem replaceL_eq_self_of_not_mem {p : Char} {ps rep : List Char} :
    ∀ {l : List Char}, p ∉ l → replaceL p ps rep l = l := by
  intro l
  induction l with
  | nil => intro _; rw [replaceL]
  | cons c cs ih =>
    intro h
    have hc : p ≠ c := fun he => h (he ▸ List.mem_cons_self c cs)
    have hpre : ¬(p :: ps).isPrefixOf (c :: cs) = true := by
      intro hp
      rcases prefixOf_iff.mp hp with ⟨t, ht⟩
      rw [List.cons_append] at ht
      injection ht with h1 _
      exact hc h1
    rw [replaceL, if_neg hpre, ih (fun hm => h (List.mem_cons_of_mem c hm))]

/-- `replace` is the identity when the pattern does not occur. -/
theorem replaceL_eq_self_of_not_contains {p : Char} {ps rep : List Char} :
    ∀ {l : List Char}, containsL (p :: ps) l = false → replaceL p ps rep l = l := by
  intro l
  induction l with
  | nil => intro _; rw [replaceL]
  | cons c cs ih =>
    intro h
    rw [containsL, Bool.or_eq_false_iff] at h
    rw [replaceL, if_neg (by simp [h.1]), ih h.2]

/-- Deleting a single-character pattern removes every occurrence of it. -/
theorem not_mem_replaceL_single (p : Char) :
    ∀ l : List Char, p ∉ replaceL p [] [] l := by
  intro l
  induction l using replaceL.induct p [] [] with
  | case1 => rw [replaceL]; exact List.not_mem_nil p
  | case2 c cs hpre ih =>
    rw [replaceL, if_pos hpre]
    simpa using ih
  | case3 c cs hpre ih =>
    have hc : ¬p = c := by
      intro he
      exact hpre (by simp [List.isPrefixOf, he])
    rw [replaceL, if_neg hpre]
    intro hm
    rcases List.mem_cons.mp hm with hm | hm
    · exact hc hm
    · exact ih hm

/-- The substring test is the infix relation. -/
theorem containsL_iff_inf {pat : List Char} :
    ∀ {l : List Char}, containsL pat l = true ↔ pat <:+: l := by
  intro l
  induction l with
  | nil =>
    rw [containsL]
    simp [List.isEmpty_iff, List.infix_nil]
  | cons c cs ih =>
    rw [containsL]
    rw [Bool.or_eq_true, prefixOf_iff, ih]
    exact ( List.infix_cons_iff).symm

/-- An infix of a pattern-free string is pattern-free. -/
theorem not_containsL_of_inf {pat m l : List Char} (hml : m <:+: l)
    (h : containsL pat l = false) : containsL pat m = false := by
  cases hc : containsL pat m with
  | false => rfl
  | true =>
    have := containsL_iff_inf.mpr ((containsL_iff_inf.mp hc).trans hml)
    rw [h] at this
    exact this.symm

/-- A non-empty pattern occurring in `a ++ b` occurs in `b` or starts in `a`. -/
theorem infix_append_cases {q : Char} {qs a b : List Char}
    (h : (q :: qs) <:+: a ++ b) : (q :: qs) <:+: b ∨ q ∈ a := by
  induction a with
  | nil => exact Or.inl (by simpa using h)
  | cons x a' ih =>
    rw [List.cons_append] at h
    rcases ( List.infix_cons_iff).mp h with h | h
    · rcases h with ⟨t, ht⟩
      rw [List.cons_append] at ht
      injection ht with h1 _
      exact Or.inr (h1 ▸ List.mem_cons_self ..)
    · rcases ih h with h | h
      · exact Or.inl h
      · exact Or.inr (List.mem_cons_of_mem x h)

/-- A non-empty prefix of a `replace` result whose characters avoid the
(non-empty) replacement is a prefix of the input. -/
theorem prefix_replaceL {p : Char} {ps rep : List Char} (hrep : rep ≠ [])
    (m : List Char) : ∀ q qs, (∀ c ∈ q :: qs, c ∉ rep) →
    (q :: qs) <+: replaceL p ps rep m → (q :: qs) <+: m := by
  induction m using replaceL.induct p ps rep with
  | case1 =>
    intro q qs _ h
    rw [replaceL] at h
    rcases h with ⟨t, ht⟩
    exact absurd ht (by simp)
  | case2 c cs hpre ih =>
    intro q qs hq h
    rw [replaceL, if_pos hpre] at h
    rcases hrep' : rep with _ | ⟨r0, rs⟩
    · exact absurd hrep' hrep
    · subst hrep'
      rcases h with ⟨t, ht⟩
      rw [List.cons_append, List.cons_append] at ht
      injection ht with h1 _
      exact absurd (h1 ▸ List.mem_cons_self ..) (hq q (List.mem_cons_self ..))
  | case3 c cs hpre ih =>
    intro q qs hq h
    rw [replaceL, if_neg hpre] at h
    rcases h with ⟨t, ht⟩
    rw [List.cons_append] at ht
    injection ht with h1 h2
    cases qs with
    | nil => exact ⟨cs, by rw [List.cons_append, List.nil_append, h1]⟩
    | cons q1 qs1 =>
      have hsub : ∀ c' ∈ q1 :: qs1, c' ∉ rep :=
        fun c' hc' => hq c' (List.mem_cons_of_mem q hc')
      rcases ih q1 qs1 hsub ⟨t, h2⟩ with ⟨t2, ht2⟩
      exact ⟨t2, by rw [List.cons_append, ht2, h1]⟩

/-- After replacing every occurrence of a pattern by a non-empty string that
shares no character with it, the pattern no longer occurs. -/
theorem not_containsL_replaceL_self {p : Char} {ps rep : List Char} (hrep : rep ≠ [])
    (hmem : ∀ c ∈ p :: ps, c ∉ rep) :
    ∀ m : List Char, containsL (p :: ps) (replaceL p ps rep m) = false := by
  intro m
  induction m using replaceL.induct p ps rep with
  | case1 => rw [replaceL]; rw [containsL]; rfl
  | case2 c cs hpre ih =>
    rw [replaceL, if_pos hpre]
    cases hc : containsL (p :: ps) (rep ++ replaceL p ps rep (cs.drop ps.length)) with
    | false => rfl
    | true =>
      rcases infix_append_cases (containsL_iff_inf.mp hc) with h | h
      · rw [← containsL_iff_inf] at h
        rw [ih] at h
        exact h.symm
      · exact absurd h (hmem p (List.mem_cons_self ..))
  | case3 c cs hpre ih =>
    rw [replaceL, if_neg hpre]
    rw [containsL, Bool.or_eq_false_iff]
    refine ⟨?_, ih⟩
    cases hp : (p :: ps).isPrefixOf (c :: replaceL p ps rep cs) with
    | false => rfl
    | true =>
      exfalso
      rcases prefixOf_iff.mp hp with ⟨t, ht⟩
      rw [List.cons_append] at ht
      injection ht with h1 h2
      cases ps with
      | nil =>
        exact hpre (prefixOf_iff.mpr ⟨cs, by rw [List.cons_append, List.nil_append, h1]⟩)
      | cons p1 ps1 =>
        have hsub : ∀ c' ∈ p1 :: ps1, c' ∉ rep :=
          fun c' hc' => hmem c' (List.mem_cons_of_mem p hc')
        rcases prefix_replaceL hrep cs p1 ps1 hsub ⟨t, h2⟩ with ⟨t2, ht2⟩
        exact hpre (prefixOf_iff.mpr ⟨t2, by rw [List.cons_append, ht2, h1]⟩)

/-- Replacing one pattern does not create occurrences of another pattern that
shares no character with the (non-empty) replacement. -/
theorem not_containsL_replaceL_other {p : Char} {ps rep : List Char} {q : Char} {qs : List Char}
    (hrep : rep ≠ []) (hmem : ∀ c ∈ q :: qs, c ∉ rep) :
    ∀ m : List Char, containsL (q :: qs) m = false →
    containsL (q :: qs) (replaceL p ps rep m) = false := by
  intro m
  induction m using replaceL.induct p ps rep with
  | case1 => intro h; rw [replaceL]; exact h
  | case2 c cs hpre ih =>
    intro h
    rw [replaceL, if_pos hpre]
    have hdrop : containsL (q :: qs) (cs.drop ps.length) = false :=
      not_containsL_of_inf
        (infix_of_isSuf ((List.drop_suffix ps.length cs).trans (List.suffix_cons c cs))) h
    cases hc : containsL (q :: qs) (rep ++ replaceL p ps rep (cs.drop ps.length)) with
    | false => rfl
    | true =>
      rcases infix_append_cases (containsL_iff_inf.mp hc) with hx | hx
      · rw [← containsL_iff_inf] at hx
        rw [ih hdrop] at hx
        exact hx.symm
      · exact absurd hx (hmem q (List.mem_cons_self ..))
  | case3 c cs hpre ih =>
    intro h
    rw [containsL, Bool.or_eq_false_iff] at h
    rw [replaceL, if_neg hpre]
    rw [containsL, Bool.or_eq_false_iff]
    refine ⟨?_, ih h.2⟩
    cases hp : (q :: qs).isPrefixOf (c :: replaceL p ps rep cs) with
    | false => rfl
    | true =>
      exfalso
      rcases prefixOf_iff.mp hp with ⟨t, ht⟩
      rw [List.cons_append] at ht
      injection ht with h1 h2
      cases qs with
      | nil =>
        have : (q :: []).isPrefixOf (c :: cs) = true :=
          prefixOf_iff.mpr ⟨cs, by rw [List.cons_append, List.nil_append, h1]⟩
        rw [h.1] at this
        exact Bool.noConfusion this
      | cons q1 qs1 =>
        have hsub : ∀ c' ∈ q1 :: qs1, c' ∉ rep :=
          fun c' hc' => hmem c' (List.mem_cons_of_mem q hc')
        rcases prefix_replaceL hrep cs q1 qs1 hsub ⟨t, h2⟩ with ⟨t2, ht2⟩
        have : (q :: q1 :: qs1).isPrefixOf (c :: cs) = true :=
          prefixOf_iff.mpr ⟨t2, by rw [List.cons_append, ht2, h1]⟩
        rw [h.1] at this
        exact Bool.noConfusion this

/-! ## Library: `pyStrip` -/

/-- The stripped string is a prefix of the left-stripped string. -/
theorem pyStrip_isPre_dropWhile (l : List Char) : pyStrip l <+: l.dropWhile wsPy := by
  rcases List.dropWhile_suffix (l := (l.dropWhile wsPy).reverse) wsPy with ⟨t, ht⟩
  refine ⟨t.reverse, ?_⟩
  rw [pyStrip]
  rw [← List.reverse_append, ht, List.reverse_reverse]

/-- The stripped string is an infix of the input. -/
theorem pyStrip_inf (l : List Char) : pyStrip l <:+: l :=
  (infix_of_isPre (pyStrip_isPre_dropWhile l)).trans
    (infix_of_isSuf (List.dropWhile_suffix wsPy))

/-- Characters of the stripped string come from the input. -/
theorem mem_pyStrip {c : Char} {l : List Char} (h : c ∈ pyStrip l) : c ∈ l :=
  (pyStrip_inf l).sublist.subset h

/-- The head of a `dropWhile` result fails the predicate. -/
theorem head?_dropWhile_not {q : Char → Bool} {c : Char} :
    ∀ {m : List Char}, (m.dropWhile q).head? = some c → q c = false := by
  intro m
  induction m with
  | nil => intro h; exact absurd h (by simp)
  | cons y ys ih =>
    intro h
    rw [List.dropWhile_cons] at h
    by_cases hy : q y = true
    · rw [if_pos hy] at h
      exact ih h
    · rw [if_neg hy] at h
      have : y = c := by simpa using h
      rw [← this]
      exact Bool.eq_false_iff.mpr hy

/-- The first character of a stripped string is not whitespace. -/
theorem pyStrip_head_not_ws {l : List Char} {c : Char}
    (h : (pyStrip l).head? = some c) : wsPy c = false := by
  rcases pyStrip_isPre_dropWhile l with ⟨t, ht⟩
  have hh : (l.dropWhile wsPy).head? = some c := by
    rw [← ht]
    cases hp : pyStrip l with
    | nil => rw [hp] at h; exact absurd h (by simp)
    | cons x xs =>
      rw [hp] at h
      have hx : x = c := by simpa using h
      simp [hx]
  exact head?_dropWhile_not hh

/-- The last character of a stripped string is not whitespace. -/
theorem pyStrip_getLast_not_ws {l : List Char} {c : Char}
    (h : (pyStrip l).getLast? = some c) : wsPy c = false := by
  have hrev : ((pyStrip l).reverse).head? = some c := by
    rw [List.head?_reverse]
    exact h
  have hs : (pyStrip l).reverse = ((l.dropWhile wsPy).reverse).dropWhile wsPy := by
    rw [pyStrip, List.reverse_reverse]
  rw [hs] at hrev
  exact head?_dropWhile_not hrev

/-- Stripping is the identity when neither end is whitespace. -/
theorem pyStrip_eq_self {l : List Char}
    (hh : ∀ c, l.head? = some c → wsPy c = false)
    (hl : ∀ c, l.getLast? = some c → wsPy c = false) : pyStrip l = l := by
  have h1 : l.dropWhile wsPy = l := by
    cases l with
    | nil => rfl
    | cons c cs =>
      rw [List.dropWhile_cons, if_neg]
      rw [hh c (by simp)]
      simp
  have h2 : l.reverse.dropWhile wsPy = l.reverse := by
    cases hr : l.reverse with
    | nil => simp
    | cons c cs =>
      have hc : l.getLast? = some c := by
        rw [← List.head?_reverse, hr]
        rfl
      rw [List.dropWhile_cons, if_neg]
      rw [hl c hc]
      simp
  rw [pyStrip, h1, h2, List.reverse_reverse]

/-- Stripping is idempotent. -/
theorem pyStrip_idem (l : List Char) : pyStrip (pyStrip l) = pyStrip l :=
  pyStrip_eq_self (fun _ hc => pyStrip_head_not_ws hc)
    (fun _ hc => pyStrip_getLast_not_ws hc)

/-! ## Library: `splitNl` and `joinNl` -/

/-- Splitting never yields an empty list of lines. -/
theorem splitNl_ne_nil : ∀ m : List Char, splitNl m ≠ [] := by
  intro m
  cases m with
  | nil => simp [splitNl]
  | cons c cs =>
    rw [splitNl]
    by_cases hc : c = '\n'
    · rw [if_pos hc]; simp
    · rw [if_neg hc]
      cases splitNl cs with
      | nil => simp
      | cons l ls => simp

/-- Two-line-or-more `joinNl` equation. -/
theorem joinNl_cons_cons (l l2 : List Char) (ls : List (List Char)) :
    joinNl (l :: l2 :: ls) = l ++ '\n' :: joinNl (l2 :: ls) := rfl

/-- Joining the split reproduces the string. -/
theorem joinNl_splitNl : ∀ m : List Char, joinNl (splitNl m) = m := by
  intro m
  induction m with
  | nil => rfl
  | cons c cs ih =>
    rw [splitNl]
    by_cases hc : c = '\n'
    · rw [if_pos hc]
      rcases hs : splitNl cs with _ | ⟨l, ls⟩
      · exact absurd hs (splitNl_ne_nil cs)
      · rw [joinNl_cons_cons, List.nil_append, hc, ← hs, ih]
    · rw [if_neg hc]
      rcases hs : splitNl cs with _ | ⟨l, ls⟩
      · exact absurd hs (splitNl_ne_nil cs)
      · cases ls with
        | nil =>
          have h1 : joinNl [c :: l] = c :: l := rfl
          have h2 : joinNl [l] = l := rfl
          rw [hs, h2] at ih
          rw [h1, ih]
        | cons l2 ls2 =>
          rw [joinNl_cons_cons, List.cons_append, ← joinNl_cons_cons, ← hs, ih]

/-- Lines contain no newline character. -/
theorem mem_splitNl_no_nl : ∀ {m : List Char} {l : List Char},
    l ∈ splitNl m → '\n' ∉ l := by
  intro m
  induction m with
  | nil =>
    intro l hl
    rw [splitNl] at hl
    rcases List.mem_singleton.mp hl with rfl
    exact List.not_mem_nil _
  | cons c cs ih =>
    intro l hl
    rw [splitNl] at hl
    by_cases hc : c = '\n'
    · rw [if_pos hc] at hl
      rcases List.mem_cons.mp hl with rfl | hl
      · exact List.not_mem_nil _
      · exact ih hl
    · rw [if_neg hc] at hl
      rcases hs : splitNl cs with _ | ⟨l0, ls⟩
      · exact absurd hs (splitNl_ne_nil cs)
      · rw [hs] at hl
        rcases List.mem_cons.mp hl with rfl | hl
        · intro hm
          rcases List.mem_cons.mp hm with hm | hm
          · exact hc hm.symm
          · exact ih (hs ▸ List.mem_cons_self l0 ls) hm
        · exact ih (hs ▸ List.mem_cons_of_mem l0 hl)

/-- A newline-free string splits into itself. -/
theorem splitNl_of_no_nl : ∀ {l : List Char}, '\n' ∉ l → splitNl l = [l] := by
  intro l
  induction l with
  | nil => intro _; rfl
  | cons c cs ih =>
    intro h
    have hc : ¬c = '\n' := fun he => h (he ▸ List.mem_cons_self c cs)
    rw [splitNl, if_neg hc, ih (fun hm => h (List.mem_cons_of_mem c hm))]

/-- Splitting after a newline-free first line. -/
theorem splitNl_append_nl : ∀ (a rest : List Char), '\n' ∉ a →
    splitNl (a ++ '\n' :: rest) = a :: splitNl rest := by
  intro a
  induction a with
  | nil =>
    intro rest _
    rw [List.nil_append, splitNl, if_pos rfl]
  | cons x a' ih =>
    intro rest h
    have hx : ¬x = '\n' := fun he => h (he ▸ List.mem_cons_self x a')
    rw [List.cons_append, splitNl, if_neg hx,
      ih rest (fun hm => h (List.mem_cons_of_mem x hm))]

/-- Splitting the join of newline-free lines reproduces them. -/
theorem splitNl_joinNl : ∀ L : List (List Char), (∀ l ∈ L, '\n' ∉ l) → L ≠ [] →
    splitNl (joinNl L) = L := by
  intro L
  induction L with
  | nil => intro _ h; exact absurd rfl h
  | cons l ls ih =>
    intro hL _
    cases ls with
    | nil =>
      have : joinNl [l] = l := rfl
      rw [this, splitNl_of_no_nl (hL l (List.mem_cons_self ..))]
    | cons l2 ls2 =>
      rw [joinNl_cons_cons,
        splitNl_append_nl _ _ (hL l (List.mem_cons_self ..)),
        ih (fun x hx => hL x (List.mem_cons_of_mem l hx)) (by simp)]

/-- Characters of a join come from a line or are the separator. -/
theorem mem_joinNl : ∀ {L : List (List Char)} {c : Char},
    c ∈ joinNl L → c = '\n' ∨ ∃ l ∈ L, c ∈ l := by
  intro L
  induction L with
  | nil => intro c h; rw [joinNl] at h; exact absurd h (List.not_mem_nil c)
  | cons l ls ih =>
    intro c h
    cases ls with
    | nil =>
      have : joinNl [l] = l := rfl
      rw [this] at h
      exact Or.inr ⟨l, List.mem_cons_self .., h⟩
    | cons l2 ls2 =>
      rw [joinNl_cons_cons] at h
      rcases List.mem_append.mp h with h | h
      · exact Or.inr ⟨l, List.mem_cons_self .., h⟩
      · rcases List.mem_cons.mp h with rfl | h
        · exact Or.inl rfl
        · rcases ih h with h | ⟨l0, hl0, hc0⟩
          · exact Or.inl h
          · exact Or.inr ⟨l0, List.mem_cons_of_mem l hl0, hc0⟩

/-- Every member line is an infix of the join. -/
theorem mem_joinNl_inf : ∀ (L : List (List Char)) (l : List Char), l ∈ L →
    l <:+: joinNl L := by
  intro L
  induction L with
  | nil => intro l h; exact absurd h (List.not_mem_nil l)
  | cons l0 ls ih =>
    intro l h
    cases ls with
    | nil =>
      rcases List.mem_singleton.mp h with rfl
      exact ⟨[], [], by simp [joinNl]⟩
    | cons l2 ls2 =>
      rw [joinNl_cons_cons]
      rcases List.mem_cons.mp h with rfl | h
      · exact infix_of_isPre ⟨'\n' :: joinNl (l2 :: ls2), rfl⟩
      · exact (ih l h).trans (infix_of_isSuf ⟨l0 ++ ['\n'], by simp⟩)

/-- Every line is an infix of the split string. -/
theorem infix_of_mem_splitNl {m l : List Char} (h : l ∈ splitNl m) : l <:+: m := by
  have := mem_joinNl_inf (splitNl m) l h
  rwa [joinNl_splitNl] at this

/-- A newline-free prefix of `a ++ chr 10 :: b` is a prefix of `a`. -/
theorem isPre_of_no_nl_append : ∀ (a : List Char) {q b : List Char}, '\n' ∉ q →
    q <+: a ++ '\n' :: b → q <+: a := by
  intro a
  induction a with
  | nil =>
    intro q b hq h
    cases q with
    | nil => exact List.nil_prefix
    | cons x q' =>
      rcases h with ⟨t, ht⟩
      rw [List.nil_append, List.cons_append] at ht
      injection ht with h1 _
      exact absurd (h1 ▸ List.mem_cons_self ..) hq
  | cons y a' ih =>
    intro q b hq h
    cases q with
    | nil => exact List.nil_prefix
    | cons x q' =>
      rcases h with ⟨t, ht⟩
      rw [List.cons_append, List.cons_append] at ht
      injection ht with h1 h2
      have := ih (q := q') (fun hm => hq (List.mem_cons_of_mem x hm)) ⟨t, h2⟩
      rcases this with ⟨t2, ht2⟩
      exact ⟨t2, by rw [List.cons_append, ht2, h1]⟩

/-- A newline-free pattern occurring in `a ++ chr 10 :: b` occurs in `a` or `b`. -/
theorem containsL_append_nl : ∀ (a : List Char) {q : Char} {qs b : List Char},
    '\n' ∉ q :: qs → containsL (q :: qs) (a ++ '\n' :: b) = true →
    containsL (q :: qs) a = true ∨ containsL (q :: qs) b = true := by
  intro a
  induction a with
  | nil =>
    intro q qs b hq h
    rw [List.nil_append, containsL, Bool.or_eq_true] at h
    rcases h with h | h
    · rcases prefixOf_iff.mp h with ⟨t, ht⟩
      rw [List.cons_append] at ht
      injection ht with h1 _
      exact absurd (h1.symm ▸ List.mem_cons_self ..) hq
    · exact Or.inr h
  | cons y a' ih =>
    intro q qs b hq h
    rw [List.cons_append, containsL, Bool.or_eq_true] at h
    rcases h with h | h
    · rcases prefixOf_iff.mp h with ⟨t, ht⟩
      rw [List.cons_append] at ht
      injection ht with h1 h2
      have hqs : qs <+: a' :=
        isPre_of_no_nl_append a' (fun hm => hq (List.mem_cons_of_mem q hm)) ⟨t, h2⟩
      rcases hqs with ⟨t2, ht2⟩
      refine Or.inl ?_
      rw [containsL, Bool.or_eq_true]
      exact Or.inl (prefixOf_iff.mpr ⟨t2, by rw [List.cons_append, ht2, h1]⟩)
    · rcases ih hq h with h | h
      · refine Or.inl ?_
        rw [containsL, Bool.or_eq_true]
        exact Or.inr h
      · exact Or.inr h

/-- A newline-free pattern occurring in a join occurs in some line. -/
theorem containsL_joinNl : ∀ (L : List (List Char)) {q : Char} {qs : List Char},
    '\n' ∉ q :: qs → containsL (q :: qs) (joinNl L) = true →
    ∃ l ∈ L, containsL (q :: qs) l = true := by
  intro L
  induction L with
  | nil =>
    intro q qs _ h
    rw [joinNl, containsL] at h
    exact absurd h (by simp)
  | cons l ls ih =>
    intro q qs hq h
    cases ls with
    | nil =>
      have he : joinNl [l] = l := rfl
      rw [he] at h
      exact ⟨l, List.mem_cons_self .., h⟩
    | cons l2 ls2 =>
      rw [joinNl_cons_cons] at h
      rcases containsL_append_nl l hq h with h | h
      · exact ⟨l, List.mem_cons_self .., h⟩
      · rcases ih hq h with ⟨l0, hl0, hc0⟩
        exact ⟨l0, List.mem_cons_of_mem l hl0, hc0⟩

/-! ## Library: the `EdgeOk` invariant -/

/-- The newline is not stripable line whitespace. -/
theorem wsX_nl : wsX '\n' = false := by
  rw [wsX]
  simp

/-- Stripable line whitespace is a restriction of Python whitespace. -/
theorem wsX_eq_false_of_wsPy {c : Char} (h : wsPy c = false) : wsX c = false := by
  rw [wsX, h]
  rfl

/-- On non-newline characters, `wsX` agrees with `wsPy`. -/
theorem wsPy_eq_false_of_wsX {c : Char} (h : wsX c = false) (hc : c ≠ '\n') :
    wsPy c = false := by
  rw [wsX] at h
  rcases Bool.and_eq_false_iff.mp h with h | h
  · exact h
  · rw [Bool.not_eq_false', decide_eq_true_iff] at h
    exact absurd h hc

/-- Pairs of non-newline characters are always allowed. -/
theorem okPair_of_ne_nl {a b : Char} (ha : a ≠ '\n') (hb : b ≠ '\n') :
    okPair a b = true := by
  rw [okPair]
  simp [ha, hb]

/-- A newline before a non-stripable character is allowed. -/
theorem okPair_nl_left {b : Char} (hb : wsX b = false) : okPair '\n' b = true := by
  rw [okPair, hb, wsX_nl]
  rfl

/-- A non-stripable character before a newline is allowed. -/
theorem okPair_nl_right {a : Char} (ha : wsX a = false) : okPair a '\n' = true := by
  rw [okPair, ha, wsX_nl]
  simp

/-- An allowed pair starting with a newline has a non-stripable second member. -/
theorem okPair_nl_left_elim {b : Char} (h : okPair '\n' b = true) : wsX b = false := by
  rw [okPair, Bool.and_eq_true] at h
  rcases h with ⟨h1, _⟩
  rw [Bool.not_eq_true', Bool.and_eq_false_iff] at h1
  rcases h1 with h1 | h1
  · simp at h1
  · exact h1

/-- An allowed pair ending with a newline has a non-stripable first member. -/
theorem okPair_nl_right_elim {a : Char} (h : okPair a '\n' = true) : wsX a = false := by
  rw [okPair, Bool.and_eq_true] at h
  rcases h with ⟨_, h2⟩
  rw [Bool.not_eq_true', Bool.and_eq_false_iff] at h2
  rcases h2 with h2 | h2
  · exact h2
  · simp at h2

/-- A newline-free string is an allowed chain. -/
theorem chain_ok_of_no_nl : ∀ {l : List Char}, '\n' ∉ l →
    List.Chain' (fun a b => okPair a b = true) l := by
  intro l
  induction l with
  | nil => intro _; exact List.chain'_nil
  | cons a t ih =>
    intro h
    rw [List.chain'_cons']
    refine ⟨?_, ih (fun hm => h (List.mem_cons_of_mem a hm))⟩
    intro y hy
    have hyt : y ∈ t := by
      cases t with
      | nil => simp at hy
      | cons b t2 =>
        have hb : b = y := by simpa using hy
        exact List.mem_cons.mpr (Or.inl hb.symm)
    exact okPair_of_ne_nl
      (fun he => h (he ▸ List.mem_cons_self a t))
      (fun he => h (List.mem_cons_of_mem a (he ▸ hyt)))

/-- A cons with non-empty tail keeps the tail's last element. -/
theorem getLast?_cons_ne {a : Char} {t : List Char} (h : t ≠ []) :
    (a :: t).getLast? = t.getLast? := by
  have : a :: t = [a] ++ t := rfl
  rw [this, List.getLast?_append]
  rcases Option.isSome_iff_exists.mp (List.getLast?_isSome.mpr h) with ⟨c, hc⟩
  rw [hc]
  rfl

/-- A non-empty suffix keeps the last element. -/
theorem getLast?_of_suffix_ne {l₁ l₂ : List Char} (h : l₁ <:+ l₂) (hne : l₁ ≠ []) :
    l₂.getLast? = l₁.getLast? := by
  rcases h with ⟨t, ht⟩
  rw [← ht, List.getLast?_append]
  rcases Option.isSome_iff_exists.mp (List.getLast?_isSome.mpr hne) with ⟨c, hc⟩
  rw [hc]
  rfl

/-- Joining newline-free lines whose ends are not whitespace yields an
`EdgeOk` string. -/
theorem edgeOk_joinNl : ∀ L : List (List Char),
    (∀ l ∈ L, '\n' ∉ l) →
    (∀ l ∈ L, ∀ c, l.head? = some c → wsPy c = false) →
    (∀ l ∈ L, ∀ c, l.getLast? = some c → wsPy c = false) →
    EdgeOk (joinNl L) := by
  intro L
  induction L with
  | nil =>
    intro _ _ _
    refine ⟨List.chain'_nil, ?_, ?_⟩
    · intro c hc; rw [joinNl] at hc; exact absurd hc (by simp)
    · intro c hc; rw [joinNl] at hc; exact absurd hc (by simp)
  | cons l ls ih =>
    intro hnl hh hl
    cases ls with
    | nil =>
      have he : joinNl [l] = l := rfl
      rw [he]
      refine ⟨chain_ok_of_no_nl (hnl l (List.mem_cons_self ..)), ?_, ?_⟩
      · intro c hc
        exact wsX_eq_false_of_wsPy (hh l (List.mem_cons_self ..) c hc)
      · intro c hc
        exact wsX_eq_false_of_wsPy (hl l (List.mem_cons_self ..) c hc)
    | cons l2 ls2 =>
      have hIH : EdgeOk (joinNl (l2 :: ls2)) :=
        ih (fun x hx => hnl x (List.mem_cons_of_mem l hx))
          (fun x hx => hh x (List.mem_cons_of_mem l hx))
          (fun x hx => hl x (List.mem_cons_of_mem l hx))
      rw [joinNl_cons_cons]
      refine ⟨?_, ?_, ?_⟩
      · rw [List.chain'_append]
        refine ⟨chain_ok_of_no_nl (hnl l (List.mem_cons_self ..)), ?_, ?_⟩
        · rw [List.chain'_cons']
          refine ⟨?_, hIH.1⟩
          intro y hy
          exact okPair_nl_left (hIH.2.1 y (Option.mem_def.mp hy))
        · intro x hx y hy
          have hy' : '\n' = y := by simpa using hy
          subst hy'
          exact okPair_nl_right
            (wsX_eq_false_of_wsPy (hl l (List.mem_cons_self ..) x (Option.mem_def.mp hx)))
      · intro c hc
        rw [List.head?_append] at hc
        cases hL : l.head? with
        | some x =>
          rw [hL] at hc
          have hx : x = c := by simpa [Option.or] using hc
          exact wsX_eq_false_of_wsPy (hx ▸ hh l (List.mem_cons_self ..) x hL)
        | none =>
          rw [hL] at hc
          have hx : c = '\n' := by simpa [Option.or] using hc.symm
          rw [hx]
          exact wsX_nl
      · intro c hc
        rw [List.getLast?_append] at hc
        cases hrq : joinNl (l2 :: ls2) with
        | nil =>
          rw [hrq] at hc
          have hx : c = '\n' := by simpa [Option.or] using hc.symm
          rw [hx]
          exact wsX_nl
        | cons r rs =>
          have hne : joinNl (l2 :: ls2) ≠ [] := by rw [hrq]; simp
          rw [getLast?_cons_ne hne] at hc
          rcases Option.isSome_iff_exists.mp (List.getLast?_isSome.mpr hne) with ⟨d, hd⟩
          rw [hd] at hc
          have hx : d = c := by simpa [Option.or] using hc
          exact hx ▸ hIH.2.2 d hd

/-- With a non-empty replacement, `replace` sends only the empty string to the
empty string. -/
theorem replaceL_eq_nil_iff {p : Char} {ps rep : List Char} (hrep : rep ≠ []) :
    ∀ m : List Char, replaceL p ps rep m = [] ↔ m = [] := by
  intro m
  cases m with
  | nil => rw [replaceL]
  | cons c cs =>
    rw [replaceL]
    by_cases hp : (p :: ps).isPrefixOf (c :: cs) = true
    · rw [if_pos hp]
      constructor
      · intro h
        rcases List.append_eq_nil.mp h with ⟨h1, _⟩
        exact absurd h1 hrep
      · intro h
        exact absurd h (by simp)
    · rw [if_neg hp]
      simp
/-- When the replacement starts with the pattern head, `replace` keeps the
first character. -/
theorem head?_replaceL_eq {p : Char} {ps rep : List Char} (hrep : rep.head? = some p) :
    ∀ m : List Char, (replaceL p ps rep m).head? = m.head? := by
  intro m
  cases m with
  | nil => rw [replaceL]
  | cons c cs =>
    rw [replaceL]
    by_cases hp : (p :: ps).isPrefixOf (c :: cs) = true
    · rw [if_pos hp]
      rcases prefixOf_iff.mp hp with ⟨t, ht⟩
      rw [List.cons_append] at ht
      injection ht with h1 _
      rw [List.head?_append, hrep]
      simp [Option.or, h1]
    · rw [if_neg hp]
      rfl

/-- `replace` keeps the last character or ends in the replacement's last. -/
theorem getLast?_replaceL {p : Char} {ps rep : List Char} (hrep : rep ≠ []) :
    ∀ m : List Char, (replaceL p ps rep m).getLast? = m.getLast? ∨
      (replaceL p ps rep m).getLast? = rep.getLast? := by
  intro m
  induction m using replaceL.induct p ps rep with
  | case1 => left; rw [replaceL]
  | case2 c cs hpre ih =>
    rw [replaceL, if_pos hpre]
    by_cases hne : replaceL p ps rep (cs.drop ps.length) = []
    · right
      rw [hne, List.append_nil]
    · have hdne : cs.drop ps.length ≠ [] := by
        intro hd
        exact hne (by rw [hd, replaceL])
      have h1 : (rep ++ replaceL p ps rep (cs.drop ps.length)).getLast? =
          (replaceL p ps rep (cs.drop ps.length)).getLast? := by
        rw [List.getLast?_append]
        rcases Option.isSome_iff_exists.mp (List.getLast?_isSome.mpr hne) with ⟨d, hd⟩
        rw [hd]
        rfl
      rw [h1]
      rcases ih with h | h
      · left
        rw [h]
        have hsuf : cs.drop ps.length <:+ c :: cs :=
          (List.drop_suffix ps.length cs).trans (List.suffix_cons c cs)
        exact (getLast?_of_suffix_ne hsuf hdne).symm
      · right
        exact h
  | case3 c cs hpre ih =>
    rw [replaceL, if_neg hpre]
    cases cs with
    | nil =>
      left
      rw [replaceL]
    | cons d ds =>
      have hne : replaceL p ps rep (d :: ds) ≠ [] := by
        intro h0
        have := (replaceL_eq_nil_iff hrep (d :: ds)).mp h0
        exact absurd this (by simp)
      rw [getLast?_cons_ne hne, getLast?_cons_ne (by simp : (d :: ds) ≠ [])]
      exact ih

/-- Collapsing one blank-line run preserves the allowed-pair chain. -/
theorem chain_ok_replaceNl : ∀ m : List Char,
    List.Chain' (fun a b => okPair a b = true) m →
    List.Chain' (fun a b => okPair a b = true) (replaceL '\n' ['\n', '\n'] ['\n', '\n'] m) := by
  intro m
  induction m using replaceL.induct '\n' ['\n', '\n'] ['\n', '\n'] with
  | case1 => intro _; rw [replaceL]; exact List.chain'_nil
  | case2 c cs hpre ih =>
    intro hch
    rw [replaceL, if_pos hpre]
    rcases prefixOf_iff.mp hpre with ⟨t, ht⟩
    rw [List.cons_append] at ht
    injection ht with h1 h2
    have hdrop : List.drop (['\n', '\n'] : List Char).length cs = t := by
      rw [← h2]
      rfl
    rw [hdrop] at ih ⊢
    have hch' : List.Chain' (fun a b => okPair a b = true) ('\n' :: t) := by
      rw [← h1, ← h2] at hch
      exact (hch.tail).tail
    rw [List.chain'_cons'] at hch'
    rw [List.cons_append, List.cons_append, List.nil_append, List.chain'_cons',
      List.chain'_cons']
    refine ⟨?_, ?_, ih hch'.2⟩
    · intro y hy
      have hyn : '\n' = y := by simpa using hy
      rw [← hyn]
      exact okPair_nl_left wsX_nl
    · intro y hy
      rw [Option.mem_def, head?_replaceL_eq (show (['\n', '\n'] : List Char).head? = some '\n' from rfl) t] at hy
      exact hch'.1 y (Option.mem_def.mpr hy)
  | case3 c cs hpre ih =>
    intro hch
    rw [replaceL, if_neg hpre]
    rw [List.chain'_cons'] at hch ⊢
    refine ⟨?_, ih hch.2⟩
    intro y hy
    rw [Option.mem_def, head?_replaceL_eq (show (['\n', '\n'] : List Char).head? = some '\n' from rfl) cs] at hy
    exact hch.1 y (Option.mem_def.mpr hy)

/-- Collapsing one blank-line run preserves the `EdgeOk` invariant. -/
theorem edgeOk_replaceNl {m : List Char} (h : EdgeOk m) :
    EdgeOk (replaceL '\n' ['\n', '\n'] ['\n', '\n'] m) := by
  refine ⟨chain_ok_replaceNl m h.1, ?_, ?_⟩
  · intro c hc
    rw [head?_replaceL_eq (show (['\n', '\n'] : List Char).head? = some '\n' from rfl) m] at hc
    exact h.2.1 c hc
  · intro c hc
    rcases getLast?_replaceL (show (['\n', '\n'] : List Char) ≠ [] by simp) m with hg | hg
    · rw [hg] at hc
      exact h.2.2 c hc
    · rw [hg] at hc
      have : c = '\n' := by simpa using hc.symm
      rw [this]
      exact wsX_nl

/-- The collapsing loop terminates in a string with no blank-line run. -/
theorem collapseNl_not_contains : ∀ l : List Char,
    containsL ['\n', '\n', '\n'] (collapseNl l) = false := by
  intro l
  induction l using collapseNl.induct with
  | case1 x hcon ih =>
    rw [collapseNl, dif_pos hcon]
    exact ih
  | case2 x hcon =>
    rw [collapseNl, dif_neg hcon]
    exact Bool.not_eq_true _ ▸ hcon

/-- The collapsing loop is the identity on strings with no blank-line run. -/
theorem collapseNl_eq_self {l : List Char}
    (h : containsL ['\n', '\n', '\n'] l = false) : collapseNl l = l := by
  rw [collapseNl, dif_neg]
  rw [h]
  simp

/-- Characters of the collapsed string come from the input or are newlines. -/
theorem mem_collapseNl : ∀ {l : List Char} {c : Char},
    c ∈ collapseNl l → c ∈ l ∨ c = '\n' := by
  intro l
  induction l using collapseNl.induct with
  | case1 x hcon ih =>
    intro c hc
    rw [collapseNl, dif_pos hcon] at hc
    rcases ih hc with h | h
    · rcases mem_replaceL h with h | h
      · exact Or.inl h
      · right
        rcases List.mem_cons.mp h with h | h
        · exact h
        · simpa using h
    · exact Or.inr h
  | case2 x hcon =>
    intro c hc
    rw [collapseNl, dif_neg hcon] at hc
    exact Or.inl hc

/-- The collapsing loop creates no occurrence of a newline-free pattern. -/
theorem not_containsL_collapseNl {q : Char} {qs : List Char} (hq : '\n' ∉ q :: qs) :
    ∀ l : List Char, containsL (q :: qs) l = false →
    containsL (q :: qs) (collapseNl l) = false := by
  intro l
  induction l using collapseNl.induct with
  | case1 x hcon ih =>
    intro h
    rw [collapseNl, dif_pos hcon]
    refine ih (not_containsL_replaceL_other (by simp) ?_ x h)
    intro c hc hrep
    have : c = '\n' := by
      rcases List.mem_cons.mp hrep with h1 | h1
      · exact h1
      · simpa using h1
    exact hq (this ▸ hc)
  | case2 x hcon =>
    intro h
    rw [collapseNl, dif_neg hcon]
    exact h

/-- The collapsing loop preserves the `EdgeOk` invariant. -/
theorem edgeOk_collapseNl : ∀ l : List Char, EdgeOk l → EdgeOk (collapseNl l) := by
  intro l
  induction l using collapseNl.induct with
  | case1 x hcon ih =>
    intro h
    rw [collapseNl, dif_pos hcon]
    exact ih (edgeOk_replaceNl h)
  | case2 x hcon =>
    intro h
    rw [collapseNl, dif_neg hcon]
    exact h

/-- Stripping preserves the `EdgeOk` invariant. -/
theorem edgeOk_pyStrip {m : List Char} (h : EdgeOk m) : EdgeOk (pyStrip m) := by
  refine ⟨?_, ?_, ?_⟩
  · rcases pyStrip_inf m with ⟨u, v, huv⟩
    have h1 := h.1
    rw [← huv, List.chain'_append] at h1
    have h2 := h1.1
    rw [List.chain'_append] at h2
    exact h2.2.1
  · intro c hc
    exact wsX_eq_false_of_wsPy (pyStrip_head_not_ws hc)
  · intro c hc
    exact wsX_eq_false_of_wsPy (pyStrip_getLast_not_ws hc)

/-- The head, when present, is a member. -/
theorem mem_of_head?_eq {l : List Char} {c : Char} (h : l.head? = some c) : c ∈ l := by
  cases l with
  | nil => exact absurd h (by simp)
  | cons a t =>
    have : a = c := by simpa using h
    exact List.mem_cons.mpr (Or.inl this.symm)

/-- The last element, when present, is a member. -/
theorem mem_of_getLast?_eq {l : List Char} {c : Char} (h : l.getLast? = some c) : c ∈ l := by
  have hr : l.reverse.head? = some c := by rw [List.head?_reverse]; exact h
  exact List.mem_reverse.mp (mem_of_head?_eq hr)

/-- In an `EdgeOk` join of newline-free lines, every line is stripped. -/
theorem edgeOk_lines_stripped : ∀ L : List (List Char), EdgeOk (joinNl L) →
    (∀ l ∈ L, '\n' ∉ l) → ∀ l ∈ L, pyStrip l = l := by
  intro L
  induction L with
  | nil => intro _ _ l hl; exact absurd hl (List.not_mem_nil l)
  | cons l0 ls ih =>
    intro hE hnl l hl
    cases ls with
    | nil =>
      rcases List.mem_singleton.mp hl with rfl
      have he : joinNl [l] = l := rfl
      rw [he] at hE
      apply pyStrip_eq_self
      · intro c hc
        exact wsPy_eq_false_of_wsX (hE.2.1 c hc)
          (fun he2 => hnl l (List.mem_cons_self ..) (he2 ▸ mem_of_head?_eq hc))
      · intro c hc
        exact wsPy_eq_false_of_wsX (hE.2.2 c hc)
          (fun he2 => hnl l (List.mem_cons_self ..) (he2 ▸ mem_of_getLast?_eq hc))
    | cons l2 ls2 =>
      rw [joinNl_cons_cons] at hE
      rcases List.mem_cons.mp hl with rfl | hl2
      · apply pyStrip_eq_self
        · intro c hc
          have hw : wsX c = false := hE.2.1 c (by rw [List.head?_append, hc]; rfl)
          exact wsPy_eq_false_of_wsX hw
            (fun he2 => hnl l (List.mem_cons_self ..) (he2 ▸ mem_of_head?_eq hc))
        · intro c hc
          have h1 := hE.1
          rw [List.chain'_append] at h1
          have hb := h1.2.2 c (Option.mem_def.mpr hc) '\n' (by simp)
          exact wsPy_eq_false_of_wsX (okPair_nl_right_elim hb)
            (fun he2 => hnl l (List.mem_cons_self ..) (he2 ▸ mem_of_getLast?_eq hc))
      · have hrest : EdgeOk (joinNl (l2 :: ls2)) := by
          have h1 := hE.1
          rw [List.chain'_append] at h1
          have h2 := List.chain'_cons'.mp h1.2.1
          refine ⟨h2.2, ?_, ?_⟩
          · intro c hc
            exact okPair_nl_left_elim (h2.1 c (Option.mem_def.mpr hc))
          · intro c hc
            by_cases hrq : joinNl (l2 :: ls2) = []
            · rw [hrq] at hc
              exact absurd hc (by simp)
            · have hg : (l0 ++ '\n' :: joinNl (l2 :: ls2)).getLast? = some c := by
                rw [List.getLast?_append, getLast?_cons_ne hrq, hc]
                rfl
              exact hE.2.2 c hg
        exact ih hrest (fun x hx => hnl x (List.mem_cons_of_mem l0 hx)) l hl2

/-- Mapping a pointwise-identity function is the identity. -/
theorem map_pyStrip_self {L : List (List Char)} (h : ∀ l ∈ L, pyStrip l = l) :
    L.map pyStrip = L := by
  induction L with
  | nil => rfl
  | cons a t ih =>
    rw [List.map_cons, h a (List.mem_cons_self ..),
      ih (fun x hx => h x (List.mem_cons_of_mem a hx))]

/-- On an `EdgeOk` string, the per-line stripping pass is the identity. -/
theorem edgeOk_lineNorm_eq {m : List Char} (h : EdgeOk m) :
    joinNl ((splitNl m).map pyStrip) = m := by
  have hs : ∀ l ∈ splitNl m, pyStrip l = l := by
    apply edgeOk_lines_stripped
    · rw [joinNl_splitNl]
      exact h
    · intro l hl
      exact mem_splitNl_no_nl hl
  rw [map_pyStrip_self hs]
  exact joinNl_splitNl m

/-! ## Library: the markdown-stripping helpers -/

/-- Star-freedom of the marker-deletion result. -/
theorem not_mem_star_stripMarkdownChars (l : List Char) : '*' ∉ stripMarkdownChars l := by
  intro h
  rw [stripMarkdownChars] at h
  rcases mem_replaceL h with h | h
  · rcases mem_replaceL h with h | h
    · rcases mem_replaceL h with h | h
      · exact not_mem_replaceL_single '*' _ h
      · exact absurd h (List.not_mem_nil _)
    · exact absurd h (List.not_mem_nil _)
  · exact absurd h (List.not_mem_nil _)

/-- Hash-freedom of the marker-deletion result. -/
theorem not_mem_hash_stripMarkdownChars (l : List Char) : '#' ∉ stripMarkdownChars l := by
  intro h
  rw [stripMarkdownChars] at h
  exact not_mem_replaceL_single '#' _ h

/-- Character provenance for the marker deletion. -/
theorem mem_stripMarkdownChars {c : Char} {l : List Char}
    (h : c ∈ stripMarkdownChars l) : c ∈ l := by
  rw [stripMarkdownChars] at h
  rcases mem_replaceL h with h | h
  · rcases mem_replaceL h with h | h
    · rcases mem_replaceL h with h | h
      · rcases mem_replaceL h with h | h
        · rcases mem_replaceL h with h | h
          · exact h
          · exact absurd h (List.not_mem_nil _)
        · exact absurd h (List.not_mem_nil _)
      · exact absurd h (List.not_mem_nil _)
    · exact absurd h (List.not_mem_nil _)
  · exact absurd h (List.not_mem_nil _)

/-- Marker deletion is the identity on marker-free strings. -/
theorem stripMarkdownChars_eq_self {l : List Char} (hs : '*' ∉ l) (hh : '#' ∉ l) :
    stripMarkdownChars l = l := by
  rw [stripMarkdownChars,
    replaceL_eq_self_of_not_mem hs, replaceL_eq_self_of_not_mem hs,
    replaceL_eq_self_of_not_mem hh, replaceL_eq_self_of_not_mem hh,
    replaceL_eq_self_of_not_mem hh]

/-- The per-line stripping pass creates no occurrence of a newline-free
pattern. -/
theorem not_containsL_lineNorm {q : Char} {qs : List Char} (hq : '\n' ∉ q :: qs)
    {m : List Char} (h : containsL (q :: qs) m = false) :
    containsL (q :: qs) (joinNl ((splitNl m).map pyStrip)) = false := by
  cases hc : containsL (q :: qs) (joinNl ((splitNl m).map pyStrip)) with
  | false => rfl
  | true =>
    exfalso
    rcases containsL_joinNl _ hq hc with ⟨l', hl', hcl⟩
    rcases List.mem_map.mp hl' with ⟨line, hline, rfl⟩
    have h1 : containsL (q :: qs) line = true :=
      containsL_iff_inf.mpr ((containsL_iff_inf.mp hcl).trans (pyStrip_inf line))
    have h2 : containsL (q :: qs) m = true :=
      containsL_iff_inf.mpr
        ((containsL_iff_inf.mp h1).trans (infix_of_mem_splitNl hline))
    rw [h] at h2
    exact Bool.noConfusion h2

/-- Character provenance for the `clean_markdown_text` pipeline. -/
theorem mem_cmtPipeline {c : Char} {l : List Char} (h : c ∈ cmtPipeline l) :
    c ∈ stripMarkdownChars l ∨ c = '\n' ∨ c = '─' ∨ c = '═' := by
  simp only [cmtPipeline] at h
  have h1 := mem_pyStrip h
  rcases mem_collapseNl h1 with h2 | h2
  · rcases mem_joinNl h2 with h3 | ⟨l', hl', hc⟩
    · exact Or.inr (Or.inl h3)
    · rcases List.mem_map.mp hl' with ⟨line, hline, rfl⟩
      have h4 : c ∈ line := mem_pyStrip hc
      have h5 := (infix_of_mem_splitNl hline).sublist.subset h4
      rcases mem_replaceL h5 with h6 | h6
      · rcases mem_replaceL h6 with h7 | h7
        · exact Or.inl h7
        · exact Or.inr (Or.inr (Or.inl (List.mem_replicate.mp h7).2))
      · exact Or.inr (Or.inr (Or.inr (List.mem_replicate.mp h6).2))
  · exact Or.inr (Or.inl h2)

/-- The pipeline output contains no star. -/
theorem not_mem_star_cmtPipeline (l : List Char) : '*' ∉ cmtPipeline l := by
  intro h
  rcases mem_cmtPipeline h with h | h | h | h
  · exact not_mem_star_stripMarkdownChars l h
  · exact absurd h (by decide)
  · exact absurd h (by decide)
  · exact absurd h (by decide)

/-- The pipeline output contains no hash. -/
theorem not_mem_hash_cmtPipeline (l : List Char) : '#' ∉ cmtPipeline l := by
  intro h
  rcases mem_cmtPipeline h with h | h | h | h
  · exact not_mem_hash_stripMarkdownChars l h
  · exact absurd h (by decide)
  · exact absurd h (by decide)
  · exact absurd h (by decide)

/-- The pipeline output contains no `---` ruler. -/
theorem not_containsL_dash_cmtPipeline (l : List Char) :
    containsL ['-', '-', '-'] (cmtPipeline l) = false := by
  simp only [cmtPipeline]
  refine not_containsL_of_inf (pyStrip_inf _) ?_
  refine not_containsL_collapseNl (by decide) _ ?_
  refine not_containsL_lineNorm (by decide) ?_
  refine not_containsL_replaceL_other (by simp) ?_ _ ?_
  · intro c hc hrep
    rcases List.mem_replicate.mp hrep with ⟨_, rfl⟩
    revert hc
    decide
  · refine not_containsL_replaceL_self (by simp) ?_ _
    intro c hc hrep
    rcases List.mem_replicate.mp hrep with ⟨_, rfl⟩
    revert hc
    decide

/-- The pipeline output contains no `===` ruler. -/
theorem not_containsL_eq_cmtPipeline (l : List Char) :
    containsL ['=', '=', '='] (cmtPipeline l) = false := by
  simp only [cmtPipeline]
  refine not_containsL_of_inf (pyStrip_inf _) ?_
  refine not_containsL_collapseNl (by decide) _ ?_
  refine not_containsL_lineNorm (by decide) ?_
  refine not_containsL_replaceL_self (by simp) ?_ _
  intro c hc hrep
  rcases List.mem_replicate.mp hrep with ⟨_, rfl⟩
  revert hc
  decide

/-- The pipeline output satisfies the stripped-lines invariant. -/
theorem edgeOk_cmtPipeline (l : List Char) : EdgeOk (cmtPipeline l) := by
  simp only [cmtPipeline]
  apply edgeOk_pyStrip
  apply edgeOk_collapseNl
  apply edgeOk_joinNl
  · intro l' hl'
    rcases List.mem_map.mp hl' with ⟨line, hline, rfl⟩
    intro hm
    exact mem_splitNl_no_nl hline (mem_pyStrip hm)
  · intro l' hl' c hc
    rcases List.mem_map.mp hl' with ⟨line, _, rfl⟩
    exact pyStrip_head_not_ws hc
  · intro l' hl' c hc
    rcases List.mem_map.mp hl' with ⟨line, _, rfl⟩
    exact pyStrip_getLast_not_ws hc

/-- The pipeline output contains no blank-line run. -/
theorem not_containsL_nl3_cmtPipeline (l : List Char) :
    containsL ['\n', '\n', '\n'] (cmtPipeline l) = false := by
  simp only [cmtPipeline]
  exact not_containsL_of_inf (pyStrip_inf _) (collapseNl_not_contains _)

/-- The pipeline output is stripped. -/
theorem pyStrip_cmtPipeline (l : List Char) : pyStrip (cmtPipeline l) = cmtPipeline l := by
  simp only [cmtPipeline]
  exact pyStrip_idem _

/-- The `clean_markdown_text` pipeline is idempotent on character lists. -/
theorem cmtPipeline_idem (l : List Char) : cmtPipeline (cmtPipeline l) = cmtPipeline l := by
  set u := cmtPipeline l with hu
  show cmtPipeline u = u
  rw [cmtPipeline.eq_1 u]
  rw [stripMarkdownChars_eq_self (hu ▸ not_mem_star_cmtPipeline l)
    (hu ▸ not_mem_hash_cmtPipeline l)]
  rw [@replaceL_eq_self_of_not_contains '-' ['-', '-'] (List.replicate 50 '─') u
    (hu ▸ not_containsL_dash_cmtPipeline l)]
  rw [@replaceL_eq_self_of_not_contains '=' ['=', '='] (List.replicate 50 '═') u
    (hu ▸ not_containsL_eq_cmtPipeline l)]
  rw [edgeOk_lineNorm_eq (hu ▸ edgeOk_cmtPipeline l)]
  rw [collapseNl_eq_self (hu ▸ not_containsL_nl3_cmtPipeline l)]
  exact hu ▸ pyStrip_cmtPipeline l

/-! ## Library: `clean_text` and `clean_markdown_text` on strings -/

/-- Round trip between character lists and strings. -/
theorem asString_data (l : List Char) : (List.asString l).data = l := rfl

/-- Only the empty list renders as the empty string. -/
theorem asString_eq_empty_iff {l : List Char} : l.asString = "" ↔ l = [] := by
  constructor
  · intro h
    have := congrArg String.data h
    simpa using this
  · intro h
    rw [h]
    rfl

/-- Unfolding `clean_text` on a non-empty string. -/
theorem clean_text_some_data {s : String} (h : ¬s = "") :
    clean_text (some s) = (pyStrip (stripMarkdownChars s.data)).asString := by
  simp only [clean_text]
  rw [if_neg h]

/-- `clean_text` output never contains a hash or a star. -/
theorem not_mem_clean_text (t : Option String) :
    '#' ∉ (clean_text t).data ∧ '*' ∉ (clean_text t).data := by
  cases t with
  | none => exact ⟨by simp [clean_text], by simp [clean_text]⟩
  | some s =>
    by_cases hs : s = ""
    · constructor <;> simp [clean_text, hs]
    · rw [clean_text_some_data hs]
      constructor
      · intro h
        exact not_mem_hash_stripMarkdownChars s.data (mem_pyStrip h)
      · intro h
        exact not_mem_star_stripMarkdownChars s.data (mem_pyStrip h)

/-- `clean_text` is idempotent. -/
theorem clean_text_idem (t : Option String) :
    clean_text (some (clean_text t)) = clean_text t := by
  cases t with
  | none => rfl
  | some s =>
    by_cases hs : s = ""
    · subst hs
      rfl
    · rw [clean_text_some_data hs]
      by_cases hq : pyStrip (stripMarkdownChars s.data) = []
      · rw [hq]
        rfl
      · have hne : (pyStrip (stripMarkdownChars s.data)).asString ≠ "" :=
          fun he => hq (asString_eq_empty_iff.mp he)
        rw [clean_text_some_data hne]
        congr 1
        show pyStrip (stripMarkdownChars (pyStrip (stripMarkdownChars s.data))) =
          pyStrip (stripMarkdownChars s.data)
        rw [stripMarkdownChars_eq_self
          (fun h => not_mem_star_stripMarkdownChars s.data (mem_pyStrip h))
          (fun h => not_mem_hash_stripMarkdownChars s.data (mem_pyStrip h))]
        exact pyStrip_idem _

/-- Unfolding `clean_markdown_text` on a non-empty string. -/
theorem clean_markdown_text_some_data {s : String} (h : ¬s = "") :
    clean_markdown_text (some s) = (cmtPipeline s.data).asString := by
  simp only [clean_markdown_text]
  rw [if_neg h]

/-- `clean_markdown_text` is idempotent. -/
theorem clean_markdown_text_idem (t : Option String) :
    clean_markdown_text (some (clean_markdown_text t)) = clean_markdown_text t := by
  cases t with
  | none => rfl
  | some s =>
    by_cases hs : s = ""
    · subst hs
      rfl
    · rw [clean_markdown_text_some_data hs]
      by_cases hq : cmtPipeline s.data = []
      · rw [hq]
        rfl
      · have hne : (cmtPipeline s.data).asString ≠ "" :=
          fun he => hq (asString_eq_empty_iff.mp he)
        rw [clean_markdown_text_some_data hne]
        congr 1
        exact cmtPipeline_idem s.data

/-- `clean_markdown_text` output has no three consecutive newlines. -/
theorem cmt_no_triple_newline (t : Option String) :
    containsL ['\n', '\n', '\n'] (clean_markdown_text t).data = false := by
  cases t with
  | none => rfl
  | some s =>
    by_cases hs : s = ""
    · simp only [clean_markdown_text]
      rw [if_pos hs]
      rfl
    · rw [clean_markdown_text_some_data hs]
      exact not_containsL_nl3_cmtPipeline s.data

/-! ## Library: the collapsing loop measure -/

/-- `replace` never lengthens the string when the replacement is no longer
than the pattern. -/
theorem replaceL_length_le (p : Char) (ps rep : List Char) (h : rep.length ≤ ps.length + 1) :
    ∀ l : List Char, (replaceL p ps rep l).length ≤ l.length := by
  intro l
  induction l using replaceL.induct p ps rep with
  | case1 => simp [replaceL]
  | case2 c cs hpre ih =>
    rw [replaceL, if_pos hpre]
    simp only [List.length_append, List.length_cons]
    have hd : (cs.drop ps.length).length = cs.length - ps.length := List.length_drop ..
    have hlen := (List.isPrefixOf_iff_prefix.mp hpre).length_le
    simp only [List.length_cons] at hlen
    omega
  | case3 c cs hpre ih =>
    rw [replaceL, if_neg hpre]
    simp only [List.length_cons]
    omega

/-- When the pattern occurs and the replacement is strictly shorter, one
`replace` call strictly shortens the string (the loop measure of
`collapseNl`). -/
theorem replaceL_length_lt (p : Char) (ps rep : List Char) (h : rep.length < ps.length + 1) :
    ∀ l : List Char, containsL (p :: ps) l = true → (replaceL p ps rep l).length < l.length := by
  intro l
  induction l using replaceL.induct p ps rep with
  | case1 => simp [containsL]
  | case2 c cs hpre ih =>
    intro _
    rw [replaceL, if_pos hpre]
    simp only [List.length_append, List.length_cons]
    have hd : (cs.drop ps.length).length = cs.length - ps.length := List.length_drop ..
    have hb := replaceL_length_le p ps rep (Nat.le_of_lt h) (cs.drop ps.length)
    have hlen := (List.isPrefixOf_iff_prefix.mp hpre).length_le
    simp only [List.length_cons] at hlen
    omega
  | case3 c cs hpre ih =>
    intro hc
    rw [containsL, Bool.or_eq_true] at hc
    rcases hc with hc | hc
    · exact absurd hc hpre
    · rw [replaceL, if_neg hpre]
      simp only [List.length_cons]
      exact Nat.succ_lt_succ (ih hc)

/-- A string starting with a non-empty string is non-empty. -/
theorem append_ne_empty_left {s t : String} (h : s ≠ "") : s ++ t ≠ "" := by
  intro he
  apply h
  have hd := congrArg String.data he
  rw [String.data_append] at hd
  rcases List.append_eq_nil.mp hd with ⟨h1, _⟩
  exact String.ext h1

/-- `generate_content` never classifies as `empty_input`: that outcome exists
only in the button handlers' local short-circuit. -/
theorem generate_content_outcome_ne_empty_input (env : Env)
    (session_model_choice : Option String) (client : ClientFun)
    (system_prompt prompt : String) :
    (generate_content env session_model_choice client system_prompt prompt).outcome ≠
      Outcome.empty_input := by
  simp only [generate_content]
  split
  · split
    · simp
    · split <;> simp
  · split
    · split
      · simp
      · split <;> simp
    · simp

/-! ## The claims -/

/-- C1: for every invocation of the generation operation whose selected
provider is configured, if the provider client raises an exception with
message `e`, the operation catches it and returns a `provider_error` result
whose displayed error message is `"Error generating content: "` followed by
the stringified exception message; no exception propagates (the embedding is
a total function returning this record). -/
theorem C1_provider_exception_caught (env : Env) (session_model_choice : Option String)
    (client : ClientFun) (system_prompt prompt e : String) :
    (resolve_model_choice env session_model_choice = "Gemini (Google)" →
      truthy env.gemini_api_key = true →
      client Provider.gemini (system_prompt ++ "\n\n" ++ prompt) = Except.error e →
      generate_content env session_model_choice client system_prompt prompt =
        ⟨none, Outcome.provider_error, some ("Error generating content: " ++ e),
          [(Provider.gemini, system_prompt ++ "\n\n" ++ prompt)]⟩) ∧
    (resolve_model_choice env session_model_choice = "GPT-4.1 (OpenAI)" →
      truthy env.openai_api_key = true →
      client Provider.openai prompt = Except.error e →
      generate_content env session_model_choice client system_prompt prompt =
        ⟨none, Outcome.provider_error, some ("Error generating content: " ++ e),
          [(Provider.openai, prompt)]⟩) := by
  constructor
  · intro hmc hkey hcl
    simp only [generate_content]
    rw [hmc, if_pos rfl, hkey]
    rw [if_neg (show ¬(true = false) by simp)]
    rw [hcl]
  · intro hmc hkey hcl
    simp only [generate_content]
    rw [hmc]
    rw [if_neg (show ¬(("GPT-4.1 (OpenAI)" : String) = "Gemini (Google)") by decide)]
    rw [if_pos rfl, hkey]
    rw [if_neg (show ¬(true = false) by simp)]
    rw [hcl]

/-- Witness for C1 at a concrete configured Gemini deployment and a throwing
client. -/
theorem C1_witness :
    generate_content ⟨some "k", none⟩ (some "Gemini (Google)")
      (fun _ _ => Except.error "boom") "S" "P" =
      ⟨none, Outcome.provider_error, some ("Error generating content: " ++ "boom"),
        [(Provider.gemini, "S" ++ "\n\n" ++ "P")]⟩ :=
  (C1_provider_exception_caught ⟨some "k", none⟩ (some "Gemini (Google)")
    (fun _ _ => Except.error "boom") "S" "P" "boom").1 rfl (by decide) rfl

/-- C2: for every invocation whose caller-selected provider has no configured
credential (absent or empty API key, Python falsiness), the generation
operation returns the `no_provider_configured` result — returned value `None`
(so empty text), the fill-in-your-key message, and an empty call log (no
network call) — regardless of the prompt contents. -/
theorem C2_no_provider_configured (env : Env) (session_model_choice : Option String)
    (client : ClientFun) (system_prompt prompt : String) :
    (resolve_model_choice env session_model_choice = "Gemini (Google)" →
      truthy env.gemini_api_key = false →
      generate_content env session_model_choice client system_prompt prompt =
        ⟨none, Outcome.no_provider_configured,
          some "Please add your Gemini API key to the .env file", []⟩) ∧
    (resolve_model_choice env session_model_choice = "GPT-4.1 (OpenAI)" →
      truthy env.openai_api_key = false →
      generate_content env session_model_choice client system_prompt prompt =
        ⟨none, Outcome.no_provider_configured,
          some "Please add your OpenAI API key to the .env file", []⟩) := by
  constructor
  · intro hmc hkey
    simp only [generate_content]
    rw [hmc, if_pos rfl, hkey, if_pos rfl]
  · intro hmc hkey
    simp only [generate_content]
    rw [hmc]
    rw [if_neg (show ¬(("GPT-4.1 (OpenAI)" : String) = "Gemini (Google)") by decide)]
    rw [if_pos rfl, hkey, if_pos rfl]

/-- Witness for C2 at a deployment with no keys at all and a caller-selected
Gemini. -/
theorem C2_witness :
    generate_content ⟨none, none⟩ (some "Gemini (Google)")
      (fun _ _ => Except.ok "never") "S" "P" =
      ⟨none, Outcome.no_provider_configured,
        some "Please add your Gemini API key to the .env file", []⟩ :=
  (C2_no_provider_configured ⟨none, none⟩ (some "Gemini (Google)")
    (fun _ _ => Except.ok "never") "S" "P").1 rfl rfl

/-- C3 counterexample: with a configured provider whose client returns the
empty string, the call succeeds (no exception, no error message) yet carries
empty text, so `outcome = success ↔ text ≠ ""` fails as stated. -/
theorem C3_counterexample :
    ¬(((generate_content ⟨some "k", none⟩ (some "Gemini (Google)")
          (fun _ _ => Except.ok "") "S" "P").outcome = Outcome.success) ↔
        (generate_content ⟨some "k", none⟩ (some "Gemini (Google)")
          (fun _ _ => Except.ok "") "S" "P").text ≠ "") := by
  intro h
  have h1 : (generate_content ⟨some "k", none⟩ (some "Gemini (Google)")
      (fun _ _ => Except.ok "") "S" "P").outcome = Outcome.success := rfl
  have h2 : (generate_content ⟨some "k", none⟩ (some "Gemini (Google)")
      (fun _ _ => Except.ok "") "S" "P").text = "" := rfl
  exact (h.mp h1) h2

/-- C3 (amended): a result has `outcome = success` exactly when the call
returned a string (the provider's raw output, which may itself be empty — the
counterexample above is what forces this weakening); every result with any
other outcome carries empty text together with a non-empty human-readable
message. -/
theorem C3_success_iff_returned (env : Env) (session_model_choice : Option String)
    (client : ClientFun) (system_prompt prompt : String) :
    ((generate_content env session_model_choice client system_prompt prompt).outcome =
        Outcome.success ↔
      (generate_content env session_model_choice client system_prompt prompt).returned.isSome =
        true) ∧
    ((generate_content env session_model_choice client system_prompt prompt).outcome ≠
        Outcome.success →
      (generate_content env session_model_choice client system_prompt prompt).text = "" ∧
      ∃ m, (generate_content env session_model_choice client system_prompt prompt).error_message =
          some m ∧ m ≠ "") := by
  simp only [generate_content]
  split
  · split
    · exact ⟨by simp, fun _ => ⟨rfl, "Please add your Gemini API key to the .env file",
        rfl, by decide⟩⟩
    · split
      · exact ⟨by simp [GenerationResult.text], fun hn => absurd rfl hn⟩
      · exact ⟨by simp, fun _ => ⟨rfl, _, rfl,
          append_ne_empty_left (by decide)⟩⟩
  · split
    · split
      · exact ⟨by simp, fun _ => ⟨rfl, "Please add your OpenAI API key to the .env file",
          rfl, by decide⟩⟩
      · split
        · exact ⟨by simp [GenerationResult.text], fun hn => absurd rfl hn⟩
        · exact ⟨by simp, fun _ => ⟨rfl, _, rfl,
            append_ne_empty_left (by decide)⟩⟩
    · exact ⟨by simp, fun _ => ⟨rfl, "No valid model selected or available.",
        rfl, by decide⟩⟩

/-- Witness for C3 (amended) at a concrete unconfigured deployment. -/
theorem C3_witness :
    (generate_content ⟨none, none⟩ (some "Gemini (Google)")
        (fun _ _ => Except.ok "never") "S" "P").text = "" ∧
    ∃ m, (generate_content ⟨none, none⟩ (some "Gemini (Google)")
        (fun _ _ => Except.ok "never") "S" "P").error_message = some m ∧ m ≠ "" :=
  (C3_success_iff_returned ⟨none, none⟩ (some "Gemini (Google)")
    (fun _ _ => Except.ok "never") "S" "P").2 (by decide)

/-- C4 counterexample: the generation operation returns the provider's string
raw — with a configured provider returning markdown, the success result's
text still contains a literal hash — so the claim that the returned success
text is already normalized fails as stated. -/
theorem C4_counterexample :
    (generate_content ⟨some "k", none⟩ (some "Gemini (Google)")
        (fun _ _ => Except.ok "# *markdown*") "S" "P").outcome = Outcome.success ∧
    '#' ∈ (generate_content ⟨some "k", none⟩ (some "Gemini (Google)")
        (fun _ _ => Except.ok "# *markdown*") "S" "P").text.data := by
  refine ⟨rfl, ?_⟩
  show '#' ∈ ("# *markdown*" : String).data
  decide

/-- C4 (amended): the success result's text is the provider's raw string for
both providers — whatever string the Gemini client (`response.text`) or the
OpenAI client (`response.output_text`) returns becomes the text unmodified;
the normalization is applied on the download path (`create_download_button`
passes `clean_text content` as the file data), and that normalized text never
contains a literal hash or star. -/
theorem C4_normalization_at_download :
    (∀ t : Option String, '#' ∉ (create_download_button_data t).data ∧
      '*' ∉ (create_download_button_data t).data) ∧
    (∀ (env : Env) (session_model_choice : Option String) (client : ClientFun)
      (system_prompt prompt s : String),
      resolve_model_choice env session_model_choice = "Gemini (Google)" →
      truthy env.gemini_api_key = true →
      client Provider.gemini (system_prompt ++ "\n\n" ++ prompt) = Except.ok s →
      (generate_content env session_model_choice client system_prompt prompt).text = s) ∧
    (∀ (env : Env) (session_model_choice : Option String) (client : ClientFun)
      (system_prompt prompt s : String),
      resolve_model_choice env session_model_choice = "GPT-4.1 (OpenAI)" →
      truthy env.openai_api_key = true →
      client Provider.openai prompt = Except.ok s →
      (generate_content env session_model_choice client system_prompt prompt).text = s) := by
  refine ⟨?_, ?_, ?_⟩
  · intro t
    exact not_mem_clean_text t
  · intro env session_model_choice client system_prompt prompt s hmc hkey hcl
    simp only [generate_content]
    rw [hmc, if_pos rfl, hkey]
    rw [if_neg (show ¬(true = false) by simp)]
    rw [hcl]
    rfl
  · intro env session_model_choice client system_prompt prompt s hmc hkey hcl
    simp only [generate_content]
    rw [hmc]
    rw [if_neg (show ¬(("GPT-4.1 (OpenAI)" : String) = "Gemini (Google)") by decide)]
    rw [if_pos rfl, hkey]
    rw [if_neg (show ¬(true = false) by simp)]
    rw [hcl]
    rfl

/-- Witness for C4 (amended): a concrete download normalization and concrete
raw success texts from each provider. -/
theorem C4_witness :
    '#' ∉ (create_download_button_data (some "## a **b**")).data ∧
    (generate_content ⟨some "k", none⟩ (some "Gemini (Google)")
        (fun _ _ => Except.ok "# raw *") "S" "P").text = "# raw *" ∧
    (generate_content ⟨none, some "k"⟩ (some "GPT-4.1 (OpenAI)")
        (fun _ _ => Except.ok "## raw **") "S" "P").text = "## raw **" :=
  ⟨(C4_normalization_at_download.1 (some "## a **b**")).1,
    C4_normalization_at_download.2.1 ⟨some "k", none⟩ (some "Gemini (Google)")
      (fun _ _ => Except.ok "# raw *") "S" "P" "# raw *" rfl (by decide) rfl,
    C4_normalization_at_download.2.2 ⟨none, some "k"⟩ (some "GPT-4.1 (OpenAI)")
      (fun _ _ => Except.ok "## raw **") "S" "P" "## raw **" rfl (by decide) rfl⟩

/-- C5 counterexample: with the OpenAI provider selected and configured, the
dispatched prompt is the page prompt alone — the static role preamble is not
included — so the claim that both providers receive the preamble fails. -/
theorem C5_counterexample :
    (generate_content ⟨none, some "k"⟩ (some "GPT-4.1 (OpenAI)")
        (fun _ _ => Except.ok "ok") "SYSTEM PREAMBLE" "BODY").calls =
      [(Provider.openai, "BODY")] ∧
    ("BODY" : String) ≠ "SYSTEM PREAMBLE" ++ "\n\n" ++ "BODY" := by
  exact ⟨rfl, by decide⟩

/-- C5 (amended): the prompt dispatched to Gemini is the module's static
role preamble, a blank line and the interpolated body; the prompt dispatched
to OpenAI is the interpolated body alone, without the preamble. -/
theorem C5_dispatched_prompts (env : Env) (session_model_choice : Option String)
    (client : ClientFun) (system_prompt prompt : String) :
    (resolve_model_choice env session_model_choice = "Gemini (Google)" →
      truthy env.gemini_api_key = true →
      (generate_content env session_model_choice client system_prompt prompt).calls =
        [(Provider.gemini, system_prompt ++ "\n\n" ++ prompt)]) ∧
    (resolve_model_choice env session_model_choice = "GPT-4.1 (OpenAI)" →
      truthy env.openai_api_key = true →
      (generate_content env session_model_choice client system_prompt prompt).calls =
        [(Provider.openai, prompt)]) := by
  constructor
  · intro hmc hkey
    simp only [generate_content]
    rw [hmc, if_pos rfl, hkey]
    rw [if_neg (show ¬(true = false) by simp)]
    cases client Provider.gemini (system_prompt ++ "\n\n" ++ prompt) <;> rfl
  · intro hmc hkey
    simp only [generate_content]
    rw [hmc]
    rw [if_neg (show ¬(("GPT-4.1 (OpenAI)" : String) = "Gemini (Google)") by decide)]
    rw [if_pos rfl, hkey]
    rw [if_neg (show ¬(true = false) by simp)]
    cases client Provider.openai prompt <;> rfl

/-- Witness for C5 (amended): the Gemini dispatch carries the preamble. -/
theorem C5_witness :
    (generate_content ⟨some "k", none⟩ (some "Gemini (Google)")
        (fun _ _ => Except.ok "ok") "SYS" "BODY").calls =
      [(Provider.gemini, "SYS" ++ "\n\n" ++ "BODY")] :=
  (C5_dispatched_prompts ⟨some "k", none⟩ (some "Gemini (Google)")
    (fun _ _ => Except.ok "ok") "SYS" "BODY").1 rfl (by decide)

/-- C6 counterexample: whitespace-only field values pass the Python
truthiness guard (`if employee_name and current_role:`), so with every field
a single blank the handler still dispatches one provider call and the outcome
is not `empty_input` — the claim that whitespace-only fields short-circuit
fails. -/
theorem C6_counterexample :
    (generate_idp_button ⟨some "k", none⟩ (some "Gemini (Google)")
        (fun _ _ => Except.ok "ok")
        ⟨" ", " ", " ", " ", " ", " ", " ", " ", " ", " ", " ", [" "]⟩).calls.length = 1 ∧
    (generate_idp_button ⟨some "k", none⟩ (some "Gemini (Google)")
        (fun _ _ => Except.ok "ok")
        ⟨" ", " ", " ", " ", " ", " ", " ", " ", " ", " ", " ", [" "]⟩).outcome ≠
      Outcome.empty_input := by
  constructor
  · rfl
  · intro h
    have hs : (generate_idp_button ⟨some "k", none⟩ (some "Gemini (Google)")
        (fun _ _ => Except.ok "ok")
        ⟨" ", " ", " ", " ", " ", " ", " ", " ", " ", " ", " ", [" "]⟩).outcome =
        Outcome.success := rfl
    rw [hs] at h
    exact Outcome.noConfusion h

/-- C6 (amended): the handler produces the empty-input short-circuit record
— fill-in error message, no provider call — if and only if the employee-name
or current-role field is the empty string (in particular when every field is
empty); whenever both guard fields are non-empty — whitespace-only values
included, since the guard is plain Python truthiness — the handler instead
invokes the generation operation on the interpolated prompt, whose outcome is
never `empty_input`, and whenever the selected provider is configured that
invocation dispatches a provider call. -/
theorem C6_empty_field_short_circuit (env : Env) (session_model_choice : Option String)
    (client : ClientFun) (f : IDPFields) :
    (generate_idp_button env session_model_choice client f =
        ⟨none, Outcome.empty_input,
          some "Please fill in at least Employee Name and Current Role", []⟩ ↔
      (f.employee_name = "" ∨ f.current_role = "")) ∧
    (f.employee_name ≠ "" ∧ f.current_role ≠ "" →
      generate_idp_button env session_model_choice client f =
        generate_content env session_model_choice client talent_development_system_prompt
          (idp_prompt f) ∧
      (generate_idp_button env session_model_choice client f).outcome ≠ Outcome.empty_input ∧
      ((resolve_model_choice env session_model_choice = "Gemini (Google)" ∧
          truthy env.gemini_api_key = true) ∨
        (resolve_model_choice env session_model_choice = "GPT-4.1 (OpenAI)" ∧
          truthy env.openai_api_key = true) →
        (generate_idp_button env session_model_choice client f).calls ≠ [])) := by
  have hguard : ∀ hg : f.employee_name ≠ "" ∧ f.current_role ≠ "",
      generate_idp_button env session_model_choice client f =
        generate_content env session_model_choice client talent_development_system_prompt
          (idp_prompt f) := by
    intro hg
    rw [generate_idp_button, if_pos hg]
  constructor
  · constructor
    · intro heq
      by_cases hg : f.employee_name ≠ "" ∧ f.current_role ≠ ""
      · exfalso
        have h1 := congrArg GenerationResult.outcome heq
        rw [hguard hg] at h1
        exact generate_content_outcome_ne_empty_input env session_model_choice client
          talent_development_system_prompt (idp_prompt f) h1
      · rcases Decidable.not_and_iff_or_not.mp hg with h1 | h1
        · exact Or.inl (Decidable.not_not.mp h1)
        · exact Or.inr (Decidable.not_not.mp h1)
    · intro h
      rw [generate_idp_button, if_neg]
      rintro ⟨h1, h2⟩
      rcases h with h | h
      · exact h1 h
      · exact h2 h
  · intro hg
    refine ⟨hguard hg, ?_, ?_⟩
    · rw [hguard hg]
      exact generate_content_outcome_ne_empty_input env session_model_choice client
        talent_development_system_prompt (idp_prompt f)
    · intro hprov
      rw [hguard hg]
      rcases hprov with ⟨hmc, hkey⟩ | ⟨hmc, hkey⟩
      · simp only [generate_content]
        rw [hmc, if_pos rfl, hkey]
        rw [if_neg (show ¬(true = false) by simp)]
        cases client Provider.gemini
            (talent_development_system_prompt ++ "\n\n" ++ idp_prompt f) <;> simp
      · simp only [generate_content]
        rw [hmc]
        rw [if_neg (show ¬(("GPT-4.1 (OpenAI)" : String) = "Gemini (Google)") by decide)]
        rw [if_pos rfl, hkey]
        rw [if_neg (show ¬(true = false) by simp)]
        cases client Provider.openai (idp_prompt f) <;> simp

/-- Witness for C6 (amended): the all-empty form short-circuits, and the
all-whitespace form dispatches a provider call. -/
theorem C6_witness :
    generate_idp_button ⟨some "k", none⟩ (some "Gemini (Google)")
      (fun _ _ => Except.ok "ok") ⟨"", "", "", "", "", "", "", "", "", "", "", []⟩ =
      ⟨none, Outcome.empty_input,
        some "Please fill in at least Employee Name and Current Role", []⟩ ∧
    (generate_idp_button ⟨some "k", none⟩ (some "Gemini (Google)")
        (fun _ _ => Except.ok "ok")
        ⟨" ", " ", " ", " ", " ", " ", " ", " ", " ", " ", " ", [" "]⟩).calls ≠ [] :=
  ⟨(C6_empty_field_short_circuit ⟨some "k", none⟩ (some "Gemini (Google)")
      (fun _ _ => Except.ok "ok") ⟨"", "", "", "", "", "", "", "", "", "", "", []⟩).1.mpr
      (Or.inl rfl),
    ((C6_empty_field_short_circuit ⟨some "k", none⟩ (some "Gemini (Google)")
      (fun _ _ => Except.ok "ok")
      ⟨" ", " ", " ", " ", " ", " ", " ", " ", " ", " ", " ", [" "]⟩).2
      ⟨by decide, by decide⟩).2.2 (Or.inl ⟨rfl, by decide⟩)⟩

/-- C7: both markdown-stripping normalization functions of the repository are
idempotent — applying `clean_text` (modules 04/05) or `clean_markdown_text`
(module 03) twice yields the same string as applying it once, for every
input, including the absent (`None`) input. -/
theorem C7_normalization_idempotent :
    (∀ t : Option String, clean_text (some (clean_text t)) = clean_text t) ∧
    (∀ t : Option String,
      clean_markdown_text (some (clean_markdown_text t)) = clean_markdown_text t) :=
  ⟨clean_text_idem, clean_markdown_text_idem⟩

/-- C8 counterexample: the claim quantifies over every page, but page 07
(and 08, 09) has no defaulting block — its sidebar never writes the model
choice — so with one credential configured a stale stored choice survives the
sidebar and is not an element of the available models. -/
theorem C8_counterexample :
    available_models ⟨some "k", none⟩ ≠ [] ∧
    sidebar_status_only ⟨some "k", none⟩ (some "GPT-4.1 (OpenAI)") =
      some "GPT-4.1 (OpenAI)" ∧
    "GPT-4.1 (OpenAI)" ∉ available_models ⟨some "k", none⟩ := by
  refine ⟨by decide, rfl, by decide⟩

/-- C8 (amended): on the six pages that contain the sidebar defaulting block
(modules 01-06), whenever at least one credential is configured, the sidebar
initialization leaves the session model choice inside `available_models`,
and a missing or stale stored choice is replaced by the first available
model; the sidebars of pages 07, 08 and 09 contain no such block and leave
the stored model choice unchanged, so a missing or stale choice survives
them. -/
theorem C8_sidebar_model_choice (env : Env) (session_model_choice : Option String) :
    (available_models env ≠ [] →
      ∃ c, sidebar_model_choice env session_model_choice = some c ∧
        c ∈ available_models env ∧
        ((session_model_choice = none ∨
          ∃ s, session_model_choice = some s ∧ s ∉ available_models env) →
          (available_models env).head? = some c)) ∧
    sidebar_status_only env session_model_choice = session_model_choice := by
  refine ⟨?_, rfl⟩
  intro h
  rcases ha : available_models env with _ | ⟨m, ms⟩
  · exact absurd ha h
  · cases session_model_choice with
    | none =>
      refine ⟨m, ?_, ?_, ?_⟩
      · simp [sidebar_model_choice, ha]
      · exact List.mem_cons_self ..
      · intro _
        rfl
    | some c =>
      by_cases hc : c ∈ m :: ms
      · refine ⟨c, ?_, ?_, ?_⟩
        · simp [sidebar_model_choice, ha, hc]
        · exact hc
        · intro hcase
          rcases hcase with h0 | ⟨s, hs, hns⟩
          · exact Option.noConfusion h0
          · have hsc : c = s := by injection hs
            exact absurd (hsc ▸ hns) (fun hn => hn hc)
      · refine ⟨m, ?_, ?_, ?_⟩
        · simp [sidebar_model_choice, ha, hc]
        · exact List.mem_cons_self ..
        · intro _
          rfl

/-- Witness for C8 (amended): a Gemini-only deployment with a stale stored
choice, on a defaulting page and on a status-only page. -/
theorem C8_witness :
    (∃ c, sidebar_model_choice ⟨some "k", none⟩ (some "stale") = some c ∧
      c ∈ available_models ⟨some "k", none⟩ ∧
      ((some "stale" = (none : Option String) ∨
        ∃ s, (some "stale" : Option String) = some s ∧
          s ∉ available_models ⟨some "k", none⟩) →
        (available_models ⟨some "k", none⟩).head? = some c)) ∧
    sidebar_status_only ⟨some "k", none⟩ (some "stale") = some "stale" :=
  ⟨(C8_sidebar_model_choice ⟨some "k", none⟩ (some "stale")).1 (by decide),
    (C8_sidebar_model_choice ⟨some "k", none⟩ (some "stale")).2⟩

/-- C9: the blank-line collapsing loop of `clean_markdown_text` strictly
shortens the string on every iteration in which the three-newline pattern
still occurs (so the loop terminates, which is what lets `collapseNl` be
defined by well-founded recursion on the length), and the function's output
never contains three consecutive newline characters. -/
theorem C9_collapse_terminates_no_triple_newline :
    (∀ l : List Char, containsL ['\n', '\n', '\n'] l = true →
      (replaceL '\n' ['\n', '\n'] ['\n', '\n'] l).length < l.length) ∧
    (∀ t : Option String,
      containsL ['\n', '\n', '\n'] (clean_markdown_text t).data = false) :=
  ⟨fun l h => replaceL_length_lt '\n' ['\n', '\n'] ['\n', '\n'] (by simp) l h,
    cmt_no_triple_newline⟩

/-- Witness for C9 at a concrete blank-line run. -/
theorem C9_witness :
    (replaceL '\n' ['\n', '\n'] ['\n', '\n'] ['\n', '\n', '\n', 'a']).length <
      (['\n', '\n', '\n', 'a'] : List Char).length ∧
    containsL ['\n', '\n', '\n'] (clean_markdown_text (some "a\n\n\n\nb")).data = false :=
  ⟨C9_collapse_terminates_no_triple_newline.1 ['\n', '\n', '\n', 'a'] (by decide),
    C9_collapse_terminates_no_triple_newline.2 (some "a\n\n\n\nb")⟩

/-- C10: the markdown-stripping normalization is total on absent input — the
`None` value and the empty string both map to the empty string, so a failed
generation result can be passed without precondition. -/
theorem C10_clean_text_total_on_absent :
    clean_text none = "" ∧ clean_text (some "") = "" :=
  ⟨rfl, rfl⟩
